import Mathlib

/-!
Verification of the sentence-mining engine in Scripts/get_sentences.py.

The Python functions are embedded as executable Lean functions over
`List Char` / `String`.  Modelling conventions, stated once here:

* Python's Unicode-aware `str.isalpha`, `str.isdigit`, `str.isupper`,
  `str.lower` and the regex classes `[A-Za-z]`, `[0-9]`, `\w` are modelled
  on ASCII characters (the corpus handling in the script is ASCII-oriented;
  the byte-level classes `[A-Za-z]`, `[0-9]` are ASCII in Python too).
* Python's `\s` (and `str.strip()`/`str.split()`) is modelled by the six
  ASCII whitespace characters.
* The float comparison `letters / total < 0.7` in `_alpha_ratio` is
  modelled exactly on rationals as `10 * letters < 7 * total`.
* Bounded scanning loops that Python's `re` module performs are written
  with an explicit fuel argument equal to the input length, so that every
  definition is structurally recursive and kernel-computable.
-/

namespace GetSentences

/-- Python `\s` for the re module / `str.strip` / `str.split` (ASCII part). -/
def pyWS (c : Char) : Bool :=
  c = ' ' || c = '\t' || c = '\n' || c = '\r' || c = '\x0b' || c = '\x0c'

/-- Sentence-terminal punctuation `[.!?]` of `_SENT_SPLIT_RE`. -/
def isTermCh (c : Char) : Bool :=
  c = '.' || c = '!' || c = '?'

/-- The closing quote/bracket class of `_SENT_SPLIT_RE` and `first_sentence`. -/
def isCloseCh (c : Char) : Bool :=
  c = '"' || c = '\'' || c = '”' || c = '’' || c = ')' || c = ']'

/-- Regex `[A-Za-z]` (also our ASCII model of `str.isalpha`). -/
def isAlphaCh (c : Char) : Bool :=
  ('A' ≤ c && c ≤ 'Z') || ('a' ≤ c && c ≤ 'z')

/-- Regex `[0-9]` (also our ASCII model of `str.isdigit`). -/
def isDigitCh (c : Char) : Bool :=
  '0' ≤ c && c ≤ '9'

/-- Regex `\w`: word characters, used for `\b` word boundaries. -/
def isWordCh (c : Char) : Bool :=
  isAlphaCh c || isDigitCh c || c = '_'

/-- Regex `[A-Za-z']`: the letter/apostrophe class of `_tokenize_simple`
and of the word extraction in `_has_function_words_and_verb`. -/
def isAlphaApoCh (c : Char) : Bool :=
  isAlphaCh c || c = '\''

/-- ASCII model of `str.isupper` for a single character. -/
def isUpperCh (c : Char) : Bool :=
  'A' ≤ c && c ≤ 'Z'

/-- ASCII model of `str.lower` for a single character (`Char.toLower`
lowercases exactly the ASCII uppercase letters). -/
def lowerCh (c : Char) : Char := c.toLower

/-- The set of characters stripped by `strip_outer_quotes`:
`s.strip(" '\"“”‘’")`. -/
def isOuterQuoteCh (c : Char) : Bool :=
  c = ' ' || c = '\'' || c = '"' || c = '“' || c = '”' || c = '‘' || c = '’'

/-- `WS_RE.sub(" ", text)`: every maximal run of whitespace becomes a single
space.  The flag records whether the previous character was whitespace (in
which case the current whitespace character was already absorbed). -/
def collapseGo : Bool → List Char → List Char
  | _, [] => []
  | prevWS, c :: cs =>
    if pyWS c then
      if prevWS then collapseGo true cs else ' ' :: collapseGo true cs
    else c :: collapseGo false cs

/-- `WS_RE.sub(" ", text)`. -/
def collapseWS (cs : List Char) : List Char := collapseGo false cs

/-- Strip characters satisfying `p` from the front. -/
def trimLeftP (p : Char → Bool) (cs : List Char) : List Char := cs.dropWhile p

/-- Strip characters satisfying `p` from the back. -/
def trimRightP (p : Char → Bool) (cs : List Char) : List Char :=
  (cs.reverse.dropWhile p).reverse

/-- Python `str.strip()` (no argument: whitespace). -/
def pyStrip (cs : List Char) : List Char := trimRightP pyWS (trimLeftP pyWS cs)

/-- `normalize_ws` on character lists: collapse whitespace runs, then strip. -/
def normWS (cs : List Char) : List Char := pyStrip (collapseWS cs)

/-- `normalize_ws(text)`. -/
def normalize_ws (s : String) : String := String.mk (normWS s.data)

/-- `strip_outer_quotes(s)`: `s.strip(" '\"“”‘’")`. -/
def strip_outer_quotes (s : String) : String :=
  String.mk (trimRightP isOuterQuoteCh (trimLeftP isOuterQuoteCh s.data))

/-- Python `s.split()`: maximal runs of non-whitespace characters.
`run` is the reversed current run. -/
def pySplitGo (run : List Char) : List Char → List (List Char)
  | [] => if run.isEmpty then [] else [run.reverse]
  | c :: cs =>
    if pyWS c then
      if run.isEmpty then pySplitGo [] cs else run.reverse :: pySplitGo [] cs
    else pySplitGo (c :: run) cs

/-- Python `s.split()`. -/
def pySplit (cs : List Char) : List (List Char) := pySplitGo [] cs

/-- `len(s.split())` for a sentence given as a `String`. -/
def sentWords (s : String) : Nat := (pySplit s.data).length

/-- Count the characters satisfying `p` (`sum(ch.isdigit() ...)` etc.). -/
def countCh (p : Char → Bool) (cs : List Char) : Nat := cs.countP p

/-- Python `sub in s` for strings (used for the boilerplate markers). -/
def containsSub (cs pat : List Char) : Bool :=
  (List.range (cs.length + 1)).any (fun i => pat.isPrefixOf (cs.drop i))

/-- Python `s.count(sub)`: non-overlapping occurrences, scanned left to
right.  Fuel-driven scan (fuel = length of `cs` suffices). -/
def countSubGo (pat : List Char) : Nat → List Char → Nat
  | 0, _ => 0
  | _, [] => 0
  | fuel + 1, c :: cs =>
    if pat.isPrefixOf (c :: cs) then
      1 + countSubGo pat fuel (cs.drop (pat.length - 1))
    else countSubGo pat fuel cs

/-- Python `s.count(sub)` for a nonempty pattern. -/
def countSub (cs pat : List Char) : Nat := countSubGo pat cs.length cs

/-- ASCII model of Python `s.isupper()`: at least one cased character and
no lowercase one (cased characters are modelled as ASCII letters). -/
def pyIsUpper (cs : List Char) : Bool :=
  cs.any isAlphaCh && cs.all (fun c => !isAlphaCh c || isUpperCh c)

/-- Maximal `[A-Za-z]+` runs of a string (`re.findall(r"[A-Za-z]+", s)`).
`run` is the reversed current run. -/
def alphaRunsGo (run : List Char) : List Char → List (List Char)
  | [] => if run.isEmpty then [] else [run.reverse]
  | c :: cs =>
    if isAlphaCh c then alphaRunsGo (c :: run) cs
    else if run.isEmpty then alphaRunsGo [] cs
    else run.reverse :: alphaRunsGo [] cs

/-- `re.findall(r"[A-Za-z]+", s)`. -/
def alphaRuns (cs : List Char) : List (List Char) := alphaRunsGo [] cs

/-- Maximal `[A-Za-z']+` runs (`re.findall(r"[A-Za-z']+", s)`). -/
def alphaApoRunsGo (run : List Char) : List Char → List (List Char)
  | [] => if run.isEmpty then [] else [run.reverse]
  | c :: cs =>
    if isAlphaApoCh c then alphaApoRunsGo (c :: run) cs
    else if run.isEmpty then alphaApoRunsGo [] cs
    else run.reverse :: alphaApoRunsGo [] cs

/-- `re.findall(r"[A-Za-z']+", s)`. -/
def alphaApoRuns (cs : List Char) : List (List Char) := alphaApoRunsGo [] cs

/-- One match attempt of `_looks_wordy`'s abbreviation regex
`\b[A-Za-z]{1,3}\.\b` at the head of `cs`; `prevWord` says whether the
character before `cs` is a word character (initially false).  The leading
`\b` needs a non-word character before the letters, the trailing `\b`
needs a word character right after the period. -/
def abbrMatchAt (prevWord : Bool) (cs : List Char) : Bool :=
  if prevWord then false
  else
    let r := (cs.takeWhile isAlphaCh).length
    1 ≤ r && r ≤ 3 && (cs.drop r).head? = some '.' &&
      (match (cs.drop (r + 1)).head? with
       | some d => isWordCh d
       | none => false)

/-- Counting scan for `re.findall(r"\b[A-Za-z]{1,3}\.\b", s)`.  It advances
one character at a time; this counts each match-start position once, and
matches of this pattern cannot overlap (no position strictly inside a
match satisfies the leading conditions), so the count equals `findall`'s
non-overlapping count. -/
def abbrCountGo (prevWord : Bool) : List Char → Nat
  | [] => 0
  | c :: cs =>
    (if abbrMatchAt prevWord (c :: cs) then 1 else 0) + abbrCountGo (isWordCh c) cs

/-- `len(re.findall(r"\b[A-Za-z]{1,3}\.\b", s))`. -/
def abbrCount (cs : List Char) : Nat := abbrCountGo false cs

/-- `sum(1 for t in re.findall(r"[A-Za-z]+", s) if len(t) > 2 and t.isupper())`. -/
def capsCount (cs : List Char) : Nat :=
  (alphaRuns cs).countP (fun t => 2 < t.length && t.all isUpperCh)

/-- `_looks_wordy(s)`, with its early returns written as an `if` chain. -/
def looks_wordy (s : String) : Bool :=
  let cs := s.data
  if 10 * countCh isAlphaCh cs < 7 * max 1 cs.length then false
  else if cs.any (fun c => c = '_' || c = '•' || c = '§' || c = '¶') then false
  else if 3 ≤ countCh isDigitCh cs then false
  else if 2 ≤ capsCount cs then false
  else if 2 ≤ abbrCount cs then false
  else true

/-- `FUNC_WORDS` (the source string's duplicate "that" is harmless for
membership and kept out). -/
def FUNC_WORDS : List String :=
  ["the", "a", "an", "to", "and", "of", "in", "that", "for", "with", "on",
   "at", "as", "by", "from", "is", "are", "was", "were", "be", "been",
   "being", "have", "has", "had", "do", "does", "did", "can", "could",
   "will", "would", "shall", "should", "may", "might", "must", "i", "you",
   "he", "she", "we", "they", "it", "this", "these", "those"]

/-- `VERB_LIKE`. -/
def VERB_LIKE : List String :=
  ["is", "are", "was", "were", "be", "been", "being", "have", "has", "had",
   "do", "does", "did", "can", "could", "will", "would", "shall", "should",
   "may", "might", "must", "go", "goes", "went", "gone", "make", "makes",
   "made", "say", "says", "said", "see", "sees", "saw", "seen", "know",
   "knows", "knew", "known", "think", "thinks", "thought", "come", "comes",
   "came", "take", "takes", "took", "taken", "give", "gives", "gave",
   "given", "tell", "tells", "told", "ask", "asks", "asked", "want",
   "wants", "wanted"]

/-- `_has_function_words_and_verb(s)`. -/
def has_function_words_and_verb (s : String) : Bool :=
  let words := (alphaApoRuns s.data).map (fun w => String.mk (w.map lowerCh))
  2 ≤ words.countP (fun w => FUNC_WORDS.contains w) &&
    words.any (fun w => VERB_LIKE.contains w)

/-- `seems_complete_sentence(s, min_words, max_words)`, with its early
returns written as an `if` chain in source order. -/
def seems_complete_sentence (s : String) (min_words max_words : Nat) : Bool :=
  let cs := s.data
  let words := pySplit cs
  if ¬(min_words ≤ words.length ∧ words.length ≤ max_words) then false
  else if !(match cs.getLast? with
            | some c => isTermCh c
            | none => false) then false
  else if !(match cs.find? isAlphaCh with
            | some c => isUpperCh c
            | none => false) then false
  else
    let lowered := cs.map lowerCh
    if containsSub lowered "project gutenberg".data ||
       containsSub lowered "all rights reserved".data ||
       containsSub lowered "copyright".data ||
       containsSub lowered "ebook".data ||
       containsSub lowered "http://".data ||
       containsSub lowered "https://".data then false
    else if pyIsUpper cs || 1 < countSub cs "...".data then false
    else if 2 < countCh (fun c => c = '!') cs ||
            2 < countCh (fun c => c = '?') cs then false
    else if ¬looks_wordy s then false
    else if ¬has_function_words_and_verb s then false
    else true

/-- The tail check of `first_sentence`'s regex after the terminator:
`["'”’\)\]]*(?:\s|$)`. -/
def firstSentTailOK (rest : List Char) : Bool :=
  let q := (rest.takeWhile isCloseCh).length
  match (rest.drop q).head? with
  | none => true
  | some c => pyWS c

/-- Leftmost-shortest scan of `first_sentence`'s regex
`([\s\S]*?[.!?])["'”’\)\]]*(?:\s|$)`: the first terminator whose tail
qualifies ends group 1. -/
def firstSentGo (acc : List Char) : List Char → Option (List Char)
  | [] => none
  | c :: rest =>
    if isTermCh c && firstSentTailOK rest then some (c :: acc).reverse
    else firstSentGo (c :: acc) rest

/-- `first_sentence(text)`. -/
def first_sentence (s : String) : String :=
  let t := normWS s.data
  match firstSentGo [] t with
  | some g => String.mk (pyStrip g)
  | none => String.mk t

/-- Regex `\b` at position `i` of `cs` (between `cs[i-1]` and `cs[i]`;
out-of-range neighbours count as non-word). -/
def boundaryAt (cs : List Char) (i : Nat) : Bool :=
  let pw := match i with
            | 0 => false
            | j + 1 => match cs.get? j with
                       | some c => isWordCh c
                       | none => false
  let nw := match cs.get? i with
            | some c => isWordCh c
            | none => false
  pw != nw

/-- Does `pat` occur in `cs` starting at position `i`? -/
def matchAt (pat cs : List Char) (i : Nat) : Bool := pat.isPrefixOf (cs.drop i)

/-- `build_match_regex(term)`, as a searcher: the compiled pattern
`\b{escaped}\b|\b{escaped}(?:'s|s|es)\b` with `re.IGNORECASE`, applied to
`s` (`term_re.search(s)` truthiness).  `re.escape` makes the term literal;
IGNORECASE is modelled by lowercasing both sides (ASCII), which leaves
word-character status unchanged, so `\b` positions are unaffected. -/
def build_match_regex (term : String) (s : String) : Bool :=
  let t := term.data.map lowerCh
  let cs := s.data.map lowerCh
  (List.range (cs.length + 1)).any (fun i =>
    boundaryAt cs i && matchAt t cs i &&
    (boundaryAt cs (i + t.length) ||
      (["'s".data, "s".data, "es".data]).any (fun tl =>
        matchAt tl cs (i + t.length) && boundaryAt cs (i + t.length + tl.length))))

/-- Deduplication keeping first occurrences (the `seen` set of
`search_sources_for_term`). -/
def dedupFirstGo {α : Type} [DecidableEq α] (seen : List α) : List α → List α
  | [] => []
  | x :: xs =>
    if x ∈ seen then dedupFirstGo seen xs else x :: dedupFirstGo (x :: seen) xs

/-- Deduplication keeping first occurrences. -/
def dedupFirst {α : Type} [DecidableEq α] (l : List α) : List α :=
  dedupFirstGo [] l

/-- `_term_variants(term)`: `{t, t+"'s", t+"s", t+"es"}` for the lowercased
term.  Python materialises the set in unspecified order; we fix the
insertion order above (the four strings are pairwise distinct for every
term, so only the order is a modelling choice). -/
def term_variants (term : String) : List String :=
  let t := String.mk (term.data.map lowerCh)
  dedupFirst [t, t ++ "'s", t ++ "s", t ++ "es"]

/-- `_tokenize_simple(s)`: `re.findall(r"[A-Za-z']+|[0-9]+|[^\sA-Za-z0-9]", s)`.
Fuel-driven (fuel = input length suffices: every step consumes a character). -/
def tokSimpleGo : Nat → List Char → List (List Char)
  | 0, _ => []
  | _ + 1, [] => []
  | fuel + 1, c :: cs =>
    if isAlphaApoCh c then
      (c :: cs.takeWhile isAlphaApoCh) :: tokSimpleGo fuel (cs.dropWhile isAlphaApoCh)
    else if isDigitCh c then
      (c :: cs.takeWhile isDigitCh) :: tokSimpleGo fuel (cs.dropWhile isDigitCh)
    else if pyWS c then tokSimpleGo fuel cs
    else [c] :: tokSimpleGo fuel cs

/-- `_tokenize_simple(s)`. -/
def tokenize_simple (s : String) : List (List Char) :=
  tokSimpleGo s.data.length s.data

/-- The tokenizer of `_looks_like_abbrev_end`:
`re.findall(r"[A-Za-z]+\.?|[0-9]+|[^\sA-Za-z0-9]", s)` (a letter run
absorbs one directly following period). -/
def mergeTokGo : Nat → List Char → List (List Char)
  | 0, _ => []
  | _ + 1, [] => []
  | fuel + 1, c :: cs =>
    if isAlphaCh c then
      match cs.dropWhile isAlphaCh with
      | '.' :: r2 => ((c :: cs.takeWhile isAlphaCh) ++ ['.']) :: mergeTokGo fuel r2
      | rest => (c :: cs.takeWhile isAlphaCh) :: mergeTokGo fuel rest
    else if isDigitCh c then
      (c :: cs.takeWhile isDigitCh) :: mergeTokGo fuel (cs.dropWhile isDigitCh)
    else if pyWS c then mergeTokGo fuel cs
    else [c] :: mergeTokGo fuel cs

/-- `_ABBREV_TOKENS` (incl. the dot-less "dept" of the source). -/
def ABBREV_TOKENS : List String :=
  ["mr.", "mrs.", "ms.", "dr.", "prof.", "sr.", "jr.", "st.", "mt.",
   "rev.", "fr.", "no.", "vol.", "fig.", "ch.", "pp.", "pg.", "dept.",
   "dept", "inc.", "co.", "corp.", "jan.", "feb.", "mar.", "apr.", "jun.",
   "jul.", "aug.", "sep.", "sept.", "oct.", "nov.", "dec.", "vs."]

/-- `_SHORT_ABBR_RE.search(last)` where `last` is a token of the tokenizer
above (lowercased): `\b[A-Za-z]{1,3}\.$` matches such a token exactly when
it is one to three letters followed by a final period (inside a longer
letter run there is no `\b`, and non-letter tokens have no letters). -/
def shortAbbrTok (t : List Char) : Bool :=
  match t.getLast? with
  | some '.' =>
    let w := t.dropLast
    1 ≤ w.length && w.length ≤ 3 && w.all isAlphaCh
  | _ => false

/-- `_looks_like_abbrev_end(s)`. -/
def looks_like_abbrev_end (s : List Char) : Bool :=
  match (mergeTokGo s.length s).getLast? with
  | none => false
  | some tok =>
    let last := tok.map lowerCh
    ABBREV_TOKENS.any (fun a => a.data == last) || shortAbbrTok last

/-- A prefix match of `_SENT_SPLIT_RE` = `(?<=[.!?])["'”’\)\]]*\s+` right
after a terminator: the remainder after the separator, if the
closing-quote run is followed by at least one whitespace character (the
quote class contains no whitespace, so the greedy quote run never needs
backtracking; the greedy `\s+` run is the `dropWhile`). -/
def sepSplit (cs : List Char) : Option (List Char) :=
  let r := cs.dropWhile isCloseCh
  match r.head? with
  | some c => if pyWS c then some (r.dropWhile pyWS) else none
  | none => none

/-- `_SENT_SPLIT_RE.split(text)`: left-to-right scan; after a terminator
whose tail matches the separator, cut (the piece keeps the terminator) and
resume after the separator.  Fuel-driven: every step consumes at least one
character, so fuel = input length suffices. -/
def splitF : Nat → List Char → List Char → List (List Char)
  | 0, acc, _ => [acc.reverse]
  | _ + 1, acc, [] => [acc.reverse]
  | fuel + 1, acc, c :: rest =>
    if isTermCh c then
      match sepSplit rest with
      | some rest' => (acc.reverse ++ [c]) :: splitF fuel [] rest'
      | none => splitF fuel (c :: acc) rest
    else splitF fuel (c :: acc) rest

/-- `_SENT_SPLIT_RE.split(text)`. -/
def splitRaw (cs : List Char) : List (List Char) := splitF cs.length [] cs

/-- `[p.strip() for p in _SENT_SPLIT_RE.split(text) if p.strip()]`. -/
def splitPieces (cs : List Char) : List (List Char) :=
  ((splitRaw cs).map pyStrip).filter (fun p => !p.isEmpty)

/-- The merge loop of `split_sentences`: `buffer` is extended by
`f"{buffer} {piece}"` while its last token looks like an abbreviation. -/
def mergeGo (buffer : List Char) : List (List Char) → List (List Char)
  | [] => [buffer]
  | piece :: more =>
    if looks_like_abbrev_end buffer then mergeGo (buffer ++ ' ' :: piece) more
    else buffer :: mergeGo piece more

/-- The merge pass of `split_sentences` over the split pieces. -/
def mergeParts : List (List Char) → List (List Char)
  | [] => []
  | p :: rest => mergeGo p rest

/-- `split_sentences(text)` on character lists: replace newlines, normalize
whitespace, split, strip/filter, merge. -/
def sentCore (cs : List Char) : List (List Char) :=
  let t := normWS (cs.map (fun c => if c = '\n' then ' ' else c))
  if t.isEmpty then []
  else
    let parts := splitPieces t
    if parts.isEmpty then [] else mergeParts parts

/-- `split_sentences(text)`. -/
def split_sentences (s : String) : List String := (sentCore s.data).map String.mk

/-- Joining a list of character lists with single spaces. -/
def joinSpace : List (List Char) → List Char
  | [] => []
  | p :: ps => p ++ ps.flatMap (fun q => ' ' :: q)

/-- Joining sentences back with single spaces (the spec's re-segmentation
input). -/
def joinWithSpace (l : List String) : String :=
  String.mk (joinSpace (l.map String.data))

/-- Document identity: the file path key of `file_sentences`. -/
abbrev DocId := String

/-- An inverted-index posting `(Path, sentence_index)`. -/
abbrev Posting := DocId × Nat

/-- The `best_len` sentinel `10**9` of the search loops. -/
def BIG : Nat := 10 ^ 9

/-- `file_sentences.get(fp, [])` (Python dict keys are unique, so an
association-list lookup models the dict). -/
def lookupSentences (file_sentences : List (DocId × List String)) (fp : DocId) :
    List String :=
  (file_sentences.lookup fp).getD []

/-- Resolving one posting inside the candidate loop: the guard
`if si >= len(s): continue` skips out-of-range postings, which is exactly
`List.get?` returning `none`. -/
def resolvePosting (file_sentences : List (DocId × List String)) (ref : Posting) :
    Option String :=
  (lookupSentences file_sentences ref.1).get? ref.2

/-- The candidate-examination loop shared by both branches of
`search_sources_for_term` (the per-sentence bodies of the two loops are
identical): carries `best` and `best_len`, short-circuits with the first
qualifying sentence when `prefer_shorter` is off. -/
def selectLoop (term : String) (min_words max_words : Nat)
    (prefer_shorter : Bool) :
    List String → Option String → Nat → Option String
  | [], best, _ => best
  | s :: more, best, best_len =>
    let s2 := first_sentence (strip_outer_quotes s)
    if build_match_regex term s2 &&
       seems_complete_sentence s2 min_words max_words then
      if prefer_shorter then
        let n := sentWords s2
        if n < best_len then
          selectLoop term min_words max_words prefer_shorter more (some s2) n
        else
          selectLoop term min_words max_words prefer_shorter more best best_len
      else some s2
    else selectLoop term min_words max_words prefer_shorter more best best_len

/-- `search_sources_for_term(term, file_sentences, min_words, max_words,
prefer_shorter, inverted)`.  The candidate list unions the postings of the
term variants, deduplicated by the `seen` set; if it is nonempty only the
candidates are examined (skipping out-of-range postings), otherwise every
sentence of every file is scanned in order. -/
def search_sources_for_term (term : String)
    (file_sentences : List (DocId × List String))
    (min_words max_words : Nat) (prefer_shorter : Bool)
    (inverted : Option (String → List Posting)) : Option String :=
  let candidates : List Posting :=
    match inverted with
    | some inv => dedupFirst ((term_variants term).flatMap inv)
    | none => []
  if candidates.isEmpty then
    selectLoop term min_words max_words prefer_shorter
      (file_sentences.flatMap (fun p => p.2)) none BIG
  else
    selectLoop term min_words max_words prefer_shorter
      (candidates.filterMap (resolvePosting file_sentences)) none BIG

/-- The token set recorded per sentence by the index builder in `main`:
`set(t.lower() for t in _tokenize_simple(s) if re.match(r"[A-Za-z']+$", t))`.
The set only feeds membership tests, so duplicates are harmless. -/
def sentenceTokens (s : String) : List (List Char) :=
  ((tokenize_simple s).filter (fun t => !t.isEmpty && t.all isAlphaApoCh)).map
    (fun t => t.map lowerCh)

/-- The inverted index `main` builds: token → postings, appended while
iterating files in order and sentences in order, once per sentence that
contains the token. -/
def invertedIndex (file_sentences : List (DocId × List String)) (tok : String) :
    List Posting :=
  file_sentences.flatMap (fun fs =>
    fs.2.enum.filterMap (fun p =>
      if (sentenceTokens p.2).contains tok.data then some (fs.1, p.1) else none))

/-! ### The Tatoeba fallback, modelled over an explicit response value -/

/-- A JSON value (what `resp.json()` can produce). -/
inductive JsonV : Type
  | null
  | bool (b : Bool)
  | num (n : Int)
  | str (s : String)
  | arr (elems : List JsonV)
  | obj (fields : List (String × JsonV))

/-- Python truthiness of a JSON value (`or` chains, `if not txt`). -/
def jsonTruthy : JsonV → Bool
  | .null => false
  | .bool b => b
  | .num n => n != 0
  | .str s => !s.isEmpty
  | .arr l => !l.isEmpty
  | .obj l => !l.isEmpty

/-- `d.get(k)` on a JSON object's fields. -/
def jsonGet (fields : List (String × JsonV)) (k : String) : Option JsonV :=
  fields.lookup k

/-- What the outside world hands `fetch_tatoeba_sentence`: the `requests`
module may be missing, the request may raise, or a response arrives whose
body either parses to a JSON value or fails to parse (`none`). -/
inductive FetchEnv : Type
  | noRequests
  | requestError
  | response (status : Nat) (body : Option JsonV)

/-- The `results` selection loop of `fetch_tatoeba_sentence`.  A truthy
non-string `"text"` value reaches `normalize_ws`, which raises `TypeError`
on a non-string; a falsy or missing one is skipped. -/
def tatoebaBestGo (term : String) (min_words max_words : Nat) :
    List JsonV → Option String → Nat → Except String (Option String)
  | [], best, _ => .ok best
  | item :: more, best, best_len =>
    let txt : Option JsonV :=
      match item with
      | .obj fields => jsonGet fields "text"
      | _ => none
    match txt with
    | none => tatoebaBestGo term min_words max_words more best best_len
    | some v =>
      if !jsonTruthy v then tatoebaBestGo term min_words max_words more best best_len
      else
        match v with
        | .str txts =>
          let s := first_sentence (strip_outer_quotes (normalize_ws txts))
          if !build_match_regex term s then
            tatoebaBestGo term min_words max_words more best best_len
          else if !seems_complete_sentence s min_words max_words then
            tatoebaBestGo term min_words max_words more best best_len
          else
            let n := sentWords s
            if n < best_len then
              tatoebaBestGo term min_words max_words more (some s) n
            else tatoebaBestGo term min_words max_words more best best_len
        | _ => .error "TypeError"

/-- `results = data.get("results") or data.get("sentences") or []` (the
`or` picks the first truthy operand). -/
def tatoebaResults (fields : List (String × JsonV)) : JsonV :=
  match jsonGet fields "results" with
  | some v =>
    if jsonTruthy v then v
    else
      match jsonGet fields "sentences" with
      | some w => if jsonTruthy w then w else .arr []
      | none => .arr []
  | none =>
    match jsonGet fields "sentences" with
    | some w => if jsonTruthy w then w else .arr []
    | none => .arr []

/-- `fetch_tatoeba_sentence(term, ...)` over an explicit environment.
`.ok none` is the function returning `None`; `.error e` is an uncaught
Python exception escaping to the caller.  The `try` block covers only
`requests.get` and `resp.json()`; `data.get(...)` runs outside it, so a
body that parses to a non-object raises `AttributeError`. -/
def fetch_tatoeba_sentence (env : FetchEnv) (term : String)
    (min_words : Nat := 6) (max_words : Nat := 28) :
    Except String (Option String) :=
  match env with
  | .noRequests => .ok none
  | .requestError => .ok none
  | .response status body =>
    if status ≠ 200 then .ok none
    else
      match body with
      | none => .ok none
      | some data =>
        match data with
        | .obj fields =>
          match tatoebaResults fields with
          | .arr items => tatoebaBestGo term min_words max_words items none BIG
          | _ => .ok none
        | _ => .error "AttributeError"

/-! ### The main row loop and the resumable output writer -/

/-- An input CSV row: the `English_Term` and `English_Sentence` fields and
the remaining fields, which the loop never touches. -/
structure Row : Type where
  term : String
  sentence : String
  rest : List String
deriving DecidableEq

/-- `s.strip()` on strings. -/
def pyStripS (s : String) : String := String.mk (pyStrip s.data)

/-- The body of `main`'s row loop after the index checks, for one row.
`find` abstracts the per-term retrieval (`search_sources_for_term` through
the cache, plus the optional Tatoeba fallback).  The result is the row
written for this index, or `none` when the loop `continue`s without
writing (empty term, or already-filled sentence with overwrite disabled). -/
def processRow (find : String → Option String) (overwrite : Bool) (row : Row) :
    Option Row :=
  let term := pyStripS row.term
  if term = "" then none
  else
    let already := pyStripS row.sentence
    if already ≠ "" && !overwrite then none
    else
      match find term with
      | some s => some { row with sentence := s }
      | none => some row

/-- `main`'s row loop from row index `i` on: skip rows below
`already_written`, skip rows below `start_index`, break once
`max_rows` rows past `start_index` were reached, and otherwise write
what `processRow` decides. -/
def mainLoopFrom (find : String → Option String) (overwrite : Bool)
    (already_written start_index : Nat) (max_rows : Option Nat) (i : Nat) :
    List Row → List Row
  | [] => []
  | row :: rows =>
    if i < already_written then
      mainLoopFrom find overwrite already_written start_index max_rows (i + 1) rows
    else if i < start_index then
      mainLoopFrom find overwrite already_written start_index max_rows (i + 1) rows
    else if (match max_rows with
             | some m => decide (m ≤ i - start_index)
             | none => false) then []
    else
      match processRow find overwrite row with
      | some out =>
        out :: mainLoopFrom find overwrite already_written start_index max_rows (i + 1) rows
      | none =>
        mainLoopFrom find overwrite already_written start_index max_rows (i + 1) rows

/-- `main`'s row loop: the sequence of rows written to the output. -/
def mainLoop (find : String → Option String) (overwrite : Bool)
    (already_written start_index : Nat) (max_rows : Option Nat)
    (rows : List Row) : List Row :=
  mainLoopFrom find overwrite already_written start_index max_rows 0 rows

/-- Header-cell normalization of `_prepare_output_writer` and
`load_csv_rows`: strip whitespace, then strip leading U+FEFF BOM marks. -/
def normHeaderCell (h : String) : String :=
  String.mk (trimLeftP (fun c => c = '\uFEFF') (pyStrip h.data))

/-- A nonempty existing output file, as `_prepare_output_writer` reads it:
its header row and its data-row count (the line count minus one; every
written row is one line). -/
structure ExistingOutput : Type where
  header : List String
  dataRows : Nat
deriving DecidableEq

/-- `_prepare_output_writer(path, header)`: `none` models a missing or
empty file (create, write header, resume at 0); otherwise compare the
normalized headers, resuming with the existing data-row count on a match
and aborting (`SystemExit`) on a mismatch. -/
def prepare_output_writer (existing : Option ExistingOutput)
    (header : List String) : Except String Nat :=
  match existing with
  | none => .ok 0
  | some e =>
    let existing_header := e.header.map normHeaderCell
    let norm_header := header.map normHeaderCell
    if existing_header = norm_header then .ok e.dataRows
    else .error "Output CSV exists with a different header."

/-! ### Whitespace toolkit: properties of collapse / trim / normalize -/

/-- All whitespace characters of `cs` are plain spaces. -/
def WSSpace (cs : List Char) : Prop := ∀ c ∈ cs, pyWS c = true → c = ' '

/-- No two adjacent whitespace characters. -/
def NoWS2 (cs : List Char) : Prop :=
  List.Chain' (fun a b => ¬(pyWS a = true ∧ pyWS b = true)) cs

/-- The head, if any, does not satisfy `p`. -/
def HeadNot (p : Char → Bool) (cs : List Char) : Prop :=
  ∀ c ∈ cs.head?, p c = false

/-- The last element, if any, does not satisfy `p`. -/
def LastNot (p : Char → Bool) (cs : List Char) : Prop :=
  ∀ c ∈ cs.getLast?, p c = false

theorem wsSpace_collapseGo (b : Bool) (cs : List Char) :
    WSSpace (collapseGo b cs) := by
  induction cs generalizing b with
  | nil => intro c hc; simp [collapseGo] at hc
  | cons c cs ih =>
    intro d hd hws
    simp only [collapseGo] at hd
    by_cases h : pyWS c = true
    · simp [h] at hd
      cases b with
      | true => simp at hd; exact ih true d hd hws
      | false =>
        simp at hd
        rcases hd with h1 | h1
        · exact h1
        · exact ih true d h1 hws
    · simp [h] at hd
      rcases hd with h1 | h1
      · subst h1; exact absurd hws (by simp [h])
      · exact ih false d h1 hws

theorem headNot_collapseGo_true (cs : List Char) :
    HeadNot pyWS (collapseGo true cs) := by
  induction cs with
  | nil => intro c hc; simp [collapseGo] at hc
  | cons c cs ih =>
    intro d hd
    simp only [collapseGo] at hd
    by_cases h : pyWS c = true
    · simp [h] at hd; exact ih d hd
    · simp [h] at hd; subst hd; simpa using h

theorem noWS2_collapseGo (b : Bool) (cs : List Char) :
    NoWS2 (collapseGo b cs) := by
  induction cs generalizing b with
  | nil => simp [collapseGo, NoWS2]
  | cons c cs ih =>
    by_cases h : pyWS c = true
    · cases b with
      | true =>
        have e : collapseGo true (c :: cs) = collapseGo true cs := by
          simp [collapseGo, h]
        rw [e]; exact ih true
      | false =>
        have e : collapseGo false (c :: cs) = ' ' :: collapseGo true cs := by
          simp [collapseGo, h]
        rw [e, NoWS2, List.chain'_cons']
        refine ⟨?_, ih true⟩
        intro y hy
        have := headNot_collapseGo_true cs y hy
        simp [this]
    · have e : collapseGo b (c :: cs) = c :: collapseGo false cs := by
        simp [collapseGo, h]
      rw [e, NoWS2, List.chain'_cons']
      refine ⟨?_, ih false⟩
      intro y _
      simp [h]

theorem wsSpace_collapseWS (cs : List Char) : WSSpace (collapseWS cs) :=
  wsSpace_collapseGo false cs

theorem noWS2_collapseWS (cs : List Char) : NoWS2 (collapseWS cs) :=
  noWS2_collapseGo false cs

theorem trimLeftP_suffix (p : Char → Bool) (cs : List Char) :
    trimLeftP p cs <:+ cs :=
  (List.dropWhile_suffix p)

theorem trimRightP_pref (p : Char → Bool) (cs : List Char) :
    trimRightP p cs <+: cs := by
  have h := List.dropWhile_suffix (l := cs.reverse) p
  rw [trimRightP]
  rcases h with ⟨t, ht⟩
  exact ⟨t.reverse, by
    have := congrArg List.reverse ht
    simpa using this⟩

theorem wsSpace_of_sublist {cs ds : List Char} (h : ds ⊆ cs) (hw : WSSpace cs) :
    WSSpace ds := fun c hc => hw c (h hc)

theorem noWS2_suffix {cs ds : List Char} (h : ds <:+ cs) (hw : NoWS2 cs) :
    NoWS2 ds := by
  rcases h with ⟨t, rfl⟩
  exact (List.chain'_append.mp hw).2.1

theorem noWS2_pref {cs ds : List Char} (h : ds <+: cs) (hw : NoWS2 cs) :
    NoWS2 ds := by
  rcases h with ⟨t, rfl⟩
  exact (List.chain'_append.mp hw).1

theorem headNot_trimLeftP (p : Char → Bool) (cs : List Char) :
    HeadNot p (trimLeftP p cs) := by
  intro c hc
  rw [trimLeftP] at hc
  have := List.head?_dropWhile_not p cs
  rw [hc] at this
  simpa using this

theorem lastNot_trimRightP (p : Char → Bool) (cs : List Char) :
    LastNot p (trimRightP p cs) := by
  intro c hc
  rw [trimRightP, List.getLast?_reverse] at hc
  have := List.head?_dropWhile_not p cs.reverse
  rw [hc] at this
  simpa using this

theorem prefix_head? {cs ds : List Char} (h : ds <+: cs) (hne : ds ≠ []) :
    ds.head? = cs.head? := by
  rcases h with ⟨t, rfl⟩
  cases ds with
  | nil => exact absurd rfl hne
  | cons d ds => simp

theorem suffix_getLast? {cs ds : List Char} (h : ds <:+ cs) (hne : ds ≠ []) :
    ds.getLast? = cs.getLast? := by
  rcases h with ⟨t, rfl⟩
  rw [List.getLast?_append]
  cases hx : ds.getLast? with
  | none =>
    rw [List.getLast?_eq_none_iff] at hx
    exact absurd hx hne
  | some x => simp [Option.or]

theorem headNot_trimRightP (p q : Char → Bool) {cs : List Char}
    (h : HeadNot p cs) : HeadNot p (trimRightP q cs) := by
  intro c hc
  by_cases hne : trimRightP q cs = []
  · rw [hne] at hc; simp at hc
  · rw [prefix_head? (trimRightP_pref q cs) hne] at hc
    exact h c hc

theorem lastNot_trimLeftP (p q : Char → Bool) {cs : List Char}
    (h : LastNot p cs) : LastNot p (trimLeftP q cs) := by
  intro c hc
  by_cases hne : trimLeftP q cs = []
  · rw [hne] at hc; simp at hc
  · rw [suffix_getLast? (trimLeftP_suffix q cs) hne] at hc
    exact h c hc

theorem trimLeftP_eq_self {p : Char → Bool} {cs : List Char}
    (h : HeadNot p cs) : trimLeftP p cs = cs := by
  cases cs with
  | nil => rfl
  | cons c cs =>
    have := h c (by simp)
    simp [trimLeftP, List.dropWhile_cons, this]

theorem trimRightP_eq_self {p : Char → Bool} {cs : List Char}
    (h : LastNot p cs) : trimRightP p cs = cs := by
  have hh : HeadNot p cs.reverse := by
    intro c hc
    rw [List.head?_reverse] at hc
    exact h c hc
  have e : cs.reverse.dropWhile p = cs.reverse := by
    have := trimLeftP_eq_self hh
    rwa [trimLeftP] at this
  rw [trimRightP, e, List.reverse_reverse]

theorem pyStrip_headNot (cs : List Char) : HeadNot pyWS (pyStrip cs) :=
  headNot_trimRightP pyWS pyWS (headNot_trimLeftP pyWS cs)

theorem pyStrip_lastNot (cs : List Char) : LastNot pyWS (pyStrip cs) :=
  lastNot_trimRightP pyWS (trimLeftP pyWS cs)

theorem pyStrip_eq_self {cs : List Char} (h1 : HeadNot pyWS cs)
    (h2 : LastNot pyWS cs) : pyStrip cs = cs := by
  rw [pyStrip, trimLeftP_eq_self h1, trimRightP_eq_self h2]

theorem pyStrip_idem (cs : List Char) : pyStrip (pyStrip cs) = pyStrip cs :=
  pyStrip_eq_self (pyStrip_headNot cs) (pyStrip_lastNot cs)

theorem pyStrip_sublist (cs : List Char) : pyStrip cs ⊆ cs := by
  intro c hc
  have h1 := (trimRightP_pref pyWS (trimLeftP pyWS cs)).subset hc
  exact (trimLeftP_suffix pyWS cs).subset h1

theorem wsSpace_pyStrip {cs : List Char} (h : WSSpace cs) :
    WSSpace (pyStrip cs) := wsSpace_of_sublist (pyStrip_sublist cs) h

theorem noWS2_pyStrip {cs : List Char} (h : NoWS2 cs) : NoWS2 (pyStrip cs) :=
  noWS2_pref (trimRightP_pref _ _) (noWS2_suffix (trimLeftP_suffix _ _) h)

theorem wsSpace_normWS (cs : List Char) : WSSpace (normWS cs) :=
  wsSpace_pyStrip (wsSpace_collapseWS cs)

theorem noWS2_normWS (cs : List Char) : NoWS2 (normWS cs) :=
  noWS2_pyStrip (noWS2_collapseWS cs)

theorem headNot_normWS (cs : List Char) : HeadNot pyWS (normWS cs) :=
  pyStrip_headNot _

theorem lastNot_normWS (cs : List Char) : LastNot pyWS (normWS cs) :=
  pyStrip_lastNot _

/-- On a string whose whitespace is single spaces with a non-space head
(when the flag asks for it), the collapse pass is the identity. -/
theorem collapseGo_eq_self {cs : List Char} (hw : WSSpace cs) (h2 : NoWS2 cs) :
    collapseGo false cs = cs ∧ (HeadNot pyWS cs → collapseGo true cs = cs) := by
  induction cs with
  | nil => simp [collapseGo]
  | cons c cs ih =>
    have hw' : WSSpace cs := fun d hd => hw d (List.mem_cons_of_mem c hd)
    have h2' : NoWS2 cs := (List.chain'_cons'.mp h2).2
    have ihc := ih hw' h2'
    by_cases h : pyWS c = true
    · have hc : c = ' ' := hw c (by simp) h
      have hhead : HeadNot pyWS cs := by
        intro d hd
        have := (List.chain'_cons'.mp h2).1 d hd
        by_cases hdw : pyWS d = true
        · exact absurd ⟨h, hdw⟩ this
        · simpa using hdw
      have e : collapseGo false (c :: cs) = ' ' :: collapseGo true cs := by
        simp [collapseGo, h]
      constructor
      · rw [e, ihc.2 hhead, hc]
      · intro hh
        have := hh c (by simp)
        rw [h] at this; cases this
    · have e : ∀ b, collapseGo b (c :: cs) = c :: collapseGo false cs := by
        intro b; simp [collapseGo, h]
      constructor
      · rw [e false, ihc.1]
      · intro _
        rw [e true, ihc.1]

/-- A fully normalized string is a fixed point of `normWS`. -/
theorem normWS_eq_self {cs : List Char} (hw : WSSpace cs) (h2 : NoWS2 cs)
    (hh : HeadNot pyWS cs) (hl : LastNot pyWS cs) : normWS cs = cs := by
  rw [normWS, collapseWS, (collapseGo_eq_self hw h2).1, pyStrip_eq_self hh hl]

/-! ### The sentence splitter on terminator-free text -/

theorem splitF_no_term {cs : List Char} (acc : List Char) {fuel : Nat}
    (hfuel : cs.length ≤ fuel) (h : ∀ c ∈ cs, isTermCh c = false) :
    splitF fuel acc cs = [acc.reverse ++ cs] := by
  induction cs generalizing acc fuel with
  | nil => cases fuel <;> simp [splitF]
  | cons c cs ih =>
    cases fuel with
    | zero => simp at hfuel
    | succ fuel =>
      have hc := h c (by simp)
      have e : splitF (fuel + 1) acc (c :: cs) = splitF fuel (c :: acc) cs := by
        simp [splitF, hc]
      rw [e, ih (c :: acc) (by simpa using hfuel)
        (fun d hd => h d (List.mem_cons_of_mem c hd))]
      simp

theorem splitRaw_no_term {cs : List Char} (h : ∀ c ∈ cs, isTermCh c = false) :
    splitRaw cs = [cs] := by
  rw [splitRaw, splitF_no_term [] le_rfl h]
  simp

/-- Claim C4 (amended): a non-empty normalized text containing no terminal
punctuation yields exactly one sentence, the whole text (while the claim as
stated expects zero sentences). -/
theorem claim_C4_amended (s : String)
    (hne : normWS (s.data.map (fun c => if c = '\n' then ' ' else c)) ≠ [])
    (hterm : ∀ c ∈ normWS (s.data.map (fun c => if c = '\n' then ' ' else c)),
      isTermCh c = false) :
    split_sentences s =
      [String.mk (normWS (s.data.map (fun c => if c = '\n' then ' ' else c)))] := by
  rw [split_sentences, sentCore]
  set t := normWS (s.data.map (fun c => if c = '\n' then ' ' else c)) with ht
  have htE : t.isEmpty = false := by
    cases ht' : t with
    | nil => exact absurd ht' hne
    | cons c cs => rfl
  rw [if_neg (by simp [htE])]
  have hstrip : pyStrip t = t :=
    pyStrip_eq_self (ht ▸ headNot_normWS _) (ht ▸ lastNot_normWS _)
  have hsp : splitPieces t = [t] := by
    rw [splitPieces, splitRaw_no_term hterm]
    simp [hstrip, htE]
  rw [hsp]
  rw [if_neg (by simp)]
  rfl

/-- Claim C4 (amended) witness at a concrete input. -/
theorem claim_C4_witness :
    normWS ("hello world".data.map (fun c => if c = '\n' then ' ' else c)) ≠ [] ∧
      split_sentences "hello world" =
        [String.mk (normWS ("hello world".data.map
          (fun c => if c = '\n' then ' ' else c)))] :=
  ⟨by decide, claim_C4_amended "hello world" (by decide) (by decide)⟩

/-- Claim C4 counterexample: "hello world" has no terminal punctuation and
a non-empty normalized form, yet the Segmenter returns one sentence,
not zero. -/
theorem claim_C4_counterexample :
    split_sentences "hello world" = ["hello world"] ∧
      split_sentences "hello world" ≠ ([] : List String) :=
  ⟨rfl, by decide⟩

/-! ### The main row loop: which rows get written -/

theorem mainLoopFrom_none (find : String → Option String) (ow : Bool)
    (already start : Nat) (i : Nat) (rows : List Row) :
    mainLoopFrom find ow already start none i rows =
      (rows.drop (max already start - i)).filterMap (processRow find ow) := by
  induction rows generalizing i with
  | nil => simp [mainLoopFrom]
  | cons r rows ih =>
    by_cases h1 : i < already
    · have e : mainLoopFrom find ow already start none i (r :: rows) =
          mainLoopFrom find ow already start none (i + 1) rows := by
        simp [mainLoopFrom, h1]
      rw [e, ih (i + 1)]
      have : max already start - i = (max already start - (i + 1)) + 1 := by
        omega
      rw [this, List.drop_succ_cons]
    · by_cases h2 : i < start
      · have e : mainLoopFrom find ow already start none i (r :: rows) =
            mainLoopFrom find ow already start none (i + 1) rows := by
          simp [mainLoopFrom, h1, h2]
        rw [e, ih (i + 1)]
        have : max already start - i = (max already start - (i + 1)) + 1 := by
          omega
        rw [this, List.drop_succ_cons]
      · have e : mainLoopFrom find ow already start none i (r :: rows) =
            (match processRow find ow r with
             | some out => out :: mainLoopFrom find ow already start none (i + 1) rows
             | none => mainLoopFrom find ow already start none (i + 1) rows) := by
          simp [mainLoopFrom, h1, h2]
        have hz : max already start - i = 0 := by omega
        have hz' : max already start - (i + 1) = 0 := by omega
        rw [e, ih (i + 1), hz, hz', List.drop_zero, List.drop_zero]
        cases hp : processRow find ow r with
        | none => simp [List.filterMap_cons, hp]
        | some out => simp [List.filterMap_cons, hp]

theorem mainLoopFrom_some (find : String → Option String) (ow : Bool)
    (already start m : Nat) (i : Nat) (rows : List Row) :
    mainLoopFrom find ow already start (some m) i rows =
      ((rows.drop (max already start - i)).take
          ((start + m) - max (max already start) i)).filterMap
        (processRow find ow) := by
  induction rows generalizing i with
  | nil => simp [mainLoopFrom]
  | cons r rows ih =>
    by_cases h1 : i < already
    · have e : mainLoopFrom find ow already start (some m) i (r :: rows) =
          mainLoopFrom find ow already start (some m) (i + 1) rows := by
        simp [mainLoopFrom, h1]
      rw [e, ih (i + 1)]
      have e1 : max already start - i = (max already start - (i + 1)) + 1 := by
        omega
      have e2 : max (max already start) i = max (max already start) (i + 1) := by
        omega
      rw [e1, List.drop_succ_cons, e2]
    · by_cases h2 : i < start
      · have e : mainLoopFrom find ow already start (some m) i (r :: rows) =
            mainLoopFrom find ow already start (some m) (i + 1) rows := by
          simp [mainLoopFrom, h1, h2]
        rw [e, ih (i + 1)]
        have e1 : max already start - i = (max already start - (i + 1)) + 1 := by
          omega
        have e2 : max (max already start) i = max (max already start) (i + 1) := by
          omega
        rw [e1, List.drop_succ_cons, e2]
      · have hz : max already start - i = 0 := by omega
        have hmx : max (max already start) i = i := by omega
        by_cases h3 : m ≤ i - start
        · have e : mainLoopFrom find ow already start (some m) i (r :: rows) = [] := by
            simp [mainLoopFrom, h1, h2, h3]
          have ht : (start + m) - i = 0 := by omega
          rw [e, hz, hmx, ht]
          simp
        · have e : mainLoopFrom find ow already start (some m) i (r :: rows) =
              (match processRow find ow r with
               | some out =>
                 out :: mainLoopFrom find ow already start (some m) (i + 1) rows
               | none => mainLoopFrom find ow already start (some m) (i + 1) rows) := by
            simp [mainLoopFrom, h1, h2, h3]
          have hz' : max already start - (i + 1) = 0 := by omega
          have hmx' : max (max already start) (i + 1) = i + 1 := by omega
          have ht : (start + m) - i = ((start + m) - (i + 1)) + 1 := by omega
          rw [e, ih (i + 1), hz, hz', hmx, hmx', List.drop_zero, List.drop_zero,
            ht, List.take_succ_cons]
          cases hp : processRow find ow r with
          | none => simp [List.filterMap_cons, hp]
          | some out => simp [List.filterMap_cons, hp]

/-- Claim C1 (amended): over the processed range the loop writes exactly the
rows `processRow` accepts, once each and in input order — rows with an
empty (stripped) term, and rows with an already-filled sentence while
overwrite is off, are skipped entirely and never written; a written row is
either passed through unchanged or has exactly its sentence field replaced
by the retrieved sentence. -/
theorem claim_C1_amended (find : String → Option String) (overwrite : Bool)
    (already start m : Nat) (rows : List Row) :
    (mainLoop find overwrite already start none rows =
        (rows.drop (max already start)).filterMap (processRow find overwrite)) ∧
      (mainLoop find overwrite already start (some m) rows =
        ((rows.drop (max already start)).take
            ((start + m) - max already start)).filterMap
          (processRow find overwrite)) ∧
      (∀ r out, processRow find overwrite r = some out →
        out.term = r.term ∧ out.rest = r.rest ∧
          (out = r ∨ find (pyStripS r.term) = some out.sentence)) ∧
      (∀ r, pyStripS r.term = "" → processRow find overwrite r = none) ∧
      (∀ r, pyStripS r.sentence ≠ "" → overwrite = false →
        processRow find overwrite r = none) := by
  refine ⟨?_, ?_, ?_, ?_, ?_⟩
  · rw [mainLoop, mainLoopFrom_none]
    simp
  · rw [mainLoop, mainLoopFrom_some]
    simp
  · intro r out h
    rw [processRow] at h
    by_cases h1 : pyStripS r.term = ""
    · simp [h1] at h
    · rw [if_neg h1] at h
      by_cases h2 : (pyStripS r.sentence ≠ "" && !overwrite) = true
      · rw [if_pos h2] at h; cases h
      · rw [if_neg h2] at h
        cases hf : find (pyStripS r.term) with
        | some s =>
          rw [hf] at h
          cases h
          exact ⟨rfl, rfl, Or.inr (by simp [hf])⟩
        | none =>
          rw [hf] at h
          cases h
          exact ⟨rfl, rfl, Or.inl rfl⟩
  · intro r h
    rw [processRow, if_pos h]
  · intro r h1 h2
    by_cases ht : pyStripS r.term = ""
    · rw [processRow, if_pos ht]
    · rw [processRow, if_neg ht, if_pos (by simp [h1, h2])]

/-- Claim C1 (amended) witness at concrete inputs. -/
theorem claim_C1_witness :
    mainLoop (fun t => some (t ++ "!")) false 1 0 none
        [Row.mk "a" "" [], Row.mk "b" "" []] =
      (([Row.mk "a" "" [], Row.mk "b" "" []]).drop (max 1 0)).filterMap
        (processRow (fun t => some (t ++ "!")) false) :=
  (claim_C1_amended (fun t => some (t ++ "!")) false 1 0 0
    [Row.mk "a" "" [], Row.mk "b" "" []]).1

/-- Claim C1 counterexample: a row with an empty term is in the processed
range but is not written at all (the claim says it is written unchanged). -/
theorem claim_C1_counterexample :
    mainLoop (fun _ => none) false 0 0 none [Row.mk "" "" ["x"]] = [] ∧
      ([] : List Row) ≠ [Row.mk "" "" ["x"]] :=
  ⟨rfl, by decide⟩

/-- Helper: taking `k` written rows and appending the writes of a run
resumed at `k` reproduces the full output, provided no processed row is
skipped. -/
theorem filterMap_take_drop {α β : Type} (f : α → Option β) (l : List α)
    (k : Nat) (h : ∀ x ∈ l, f x ≠ none) :
    (l.filterMap f).take k ++ (l.drop k).filterMap f = l.filterMap f := by
  induction l generalizing k with
  | nil => simp
  | cons x l ih =>
    cases hf : f x with
    | none => exact absurd hf (h x (by simp))
    | some y =>
      cases k with
      | zero => simp [List.filterMap_cons, hf]
      | succ k =>
        rw [List.drop_succ_cons, List.filterMap_cons, hf, List.take_succ_cons,
          List.cons_append, ih k (fun z hz => h z (List.mem_cons_of_mem x hz))]

/-- Claim C2 (amended): when every input row has a nonempty stripped term
and either an empty sentence or overwrite enabled (so that no row is
skipped without being written), interrupting after `k` written rows and
resuming with the same arguments reproduces the uninterrupted output: the
resumed run skips exactly the first `k` input rows, counted by the
existing data-row count.  On a (normalized) header mismatch the writer
aborts with an error; on a match it resumes with the existing count. -/
theorem claim_C2_amended (find : String → Option String) (ow : Bool)
    (rows : List Row) (k : Nat) (header exheader : List String) (n : Nat)
    (hall : ∀ r ∈ rows,
      pyStripS r.term ≠ "" ∧ (pyStripS r.sentence = "" ∨ ow = true)) :
    ((mainLoop find ow 0 0 none rows).take k ++ mainLoop find ow k 0 none rows
        = mainLoop find ow 0 0 none rows) ∧
      (exheader.map normHeaderCell = header.map normHeaderCell →
        prepare_output_writer (some (ExistingOutput.mk exheader n)) header =
          Except.ok n) ∧
      (exheader.map normHeaderCell ≠ header.map normHeaderCell →
        prepare_output_writer (some (ExistingOutput.mk exheader n)) header =
          Except.error "Output CSV exists with a different header.") := by
  refine ⟨?_, ?_, ?_⟩
  · have h1 : mainLoop find ow 0 0 none rows =
        rows.filterMap (processRow find ow) := by
      rw [mainLoop, mainLoopFrom_none]; simp
    have h2 : mainLoop find ow k 0 none rows =
        (rows.drop k).filterMap (processRow find ow) := by
      rw [mainLoop, mainLoopFrom_none]; simp
    rw [h1, h2]
    apply filterMap_take_drop
    intro r hr
    rcases hall r hr with ⟨ht, hs⟩
    rw [processRow, if_neg ht]
    rcases hs with hs | hs
    · rw [if_neg (by simp [hs])]
      cases find (pyStripS r.term) <;> simp
    · rw [if_neg (by simp [hs])]
      cases find (pyStripS r.term) <;> simp
  · intro h
    rw [prepare_output_writer]
    simp only [if_pos h]
  · intro h
    rw [prepare_output_writer]
    simp only [if_neg h]

/-- Claim C2 (amended) witness at concrete inputs. -/
theorem claim_C2_witness :
    (∀ r ∈ [Row.mk "a" "" [], Row.mk "b" "" []],
      pyStripS r.term ≠ "" ∧ (pyStripS r.sentence = "" ∨ false = true)) ∧
      ((mainLoop (fun _ => none) false 0 0 none
            [Row.mk "a" "" [], Row.mk "b" "" []]).take 1 ++
          mainLoop (fun _ => none) false 1 0 none
            [Row.mk "a" "" [], Row.mk "b" "" []]
        = mainLoop (fun _ => none) false 0 0 none
            [Row.mk "a" "" [], Row.mk "b" "" []]) :=
  ⟨by decide, (claim_C2_amended (fun _ => none) false
    [Row.mk "a" "" [], Row.mk "b" "" []] 1 [] [] 0 (by decide)).1⟩

/-- Claim C2 counterexample: with a skipped (empty-term) first row,
interrupting after one written row and resuming duplicates a row — the
resumed output differs from the uninterrupted one. -/
theorem claim_C2_counterexample :
    (mainLoop (fun _ => none) false 0 0 none
          [Row.mk "" "" [], Row.mk "a" "" [], Row.mk "b" "" []]).take 1 ++
        mainLoop (fun _ => none) false 1 0 none
          [Row.mk "" "" [], Row.mk "a" "" [], Row.mk "b" "" []]
      ≠ mainLoop (fun _ => none) false 0 0 none
          [Row.mk "" "" [], Row.mk "a" "" [], Row.mk "b" "" []] := by
  decide

/-! ### Claim C6: the abbreviation-density rejection rule -/

/-- The claim's "short all-caps abbreviation token", formalized from the
claim's words for stating the claim as written: a whitespace-separated
token consisting of one to three uppercase letters followed by a period. -/
def specShortCapsAbbrevCount (s : String) : Nat :=
  (pySplit s.data).countP (fun w =>
    match w.getLast? with
    | some '.' =>
      let core := w.dropLast
      1 ≤ core.length && core.length ≤ 3 && core.all isUpperCh
    | _ => false)

theorem looks_wordy_false_of_abbr (s : String) (h : 2 ≤ abbrCount s.data) :
    looks_wordy s = false := by
  simp only [looks_wordy]
  split_ifs <;> rfl

/-- Claim C6 (amended): the Quality Filter rejects any sentence containing
two or more matches of the code's abbreviation pattern
`\b[A-Za-z]{1,3}\.\b` — one to three letters (any case) followed by a
period that is itself followed directly by a word character (so "U.S."
contributes two, while "TB. " followed by a space contributes none). -/
theorem claim_C6_amended (s : String) (min_words max_words : Nat)
    (h : 2 ≤ abbrCount s.data) :
    seems_complete_sentence s min_words max_words = false := by
  have hw : looks_wordy s = false := looks_wordy_false_of_abbr s h
  unfold seems_complete_sentence
  split_ifs <;> simp_all

/-- Claim C6 (amended) witness at a concrete input. -/
theorem claim_C6_witness :
    2 ≤ abbrCount "The U.S. and the E.U. met.".data ∧
      seems_complete_sentence "The U.S. and the E.U. met." 2 28 = false :=
  ⟨by decide, claim_C6_amended "The U.S. and the E.U. met." 2 28 (by decide)⟩

/-- Claim C6 counterexample: a sentence with two short all-caps
abbreviation tokens ("TB." and "RB.", each followed by a space) that the
Quality Filter accepts — the pattern requires a word character right after
the period, so neither token is counted. -/
theorem claim_C6_counterexample :
    2 ≤ specShortCapsAbbrevCount "The TB. was given to the RB. team yesterday." ∧
      seems_complete_sentence "The TB. was given to the RB. team yesterday." 6 28
        = true :=
  ⟨by decide, by decide⟩

/-! ### Claim C7: the match regex -/

theorem isPrefixOf_append (a b l : List Char) :
    (a ++ b).isPrefixOf l = (a.isPrefixOf l && b.isPrefixOf (l.drop a.length)) := by
  induction a generalizing l with
  | nil => simp [List.isPrefixOf]
  | cons x a ih =>
    cases l with
    | nil => simp [List.isPrefixOf]
    | cons y l =>
      simp only [List.cons_append, List.isPrefixOf, List.length_cons,
        List.drop_succ_cons, List.append_eq, ih l, Bool.and_assoc]

theorem matchAt_append (a b cs : List Char) (i : Nat) :
    matchAt (a ++ b) cs i = (matchAt a cs i && matchAt b cs (i + a.length)) := by
  rw [matchAt, matchAt, matchAt, isPrefixOf_append, List.drop_drop]

/-- The spec-side reading of `build_match_regex` (from the claim's words,
for the refinement comparison): the term occurs as a whole word, or as a
whole word with one of the tails `'s`, `s`, `es`, case-insensitively. -/
def matchesVariantWord (term : String) (s : String) : Bool :=
  let t := term.data.map lowerCh
  let cs := s.data.map lowerCh
  ([t, t ++ "'s".data, t ++ "s".data, t ++ "es".data]).any (fun v =>
    (List.range (cs.length + 1)).any (fun i =>
      boundaryAt cs i && matchAt v cs i && boundaryAt cs (i + v.length)))

theorem build_match_regex_eq_variants (term s : String) :
    build_match_regex term s = matchesVariantWord term s := by
  rw [Bool.eq_iff_iff]
  rw [build_match_regex, matchesVariantWord]
  set t := term.data.map lowerCh with ht
  set cs := s.data.map lowerCh with hcs
  simp only [List.any_eq_true, List.mem_range, Bool.and_eq_true, Bool.or_eq_true,
    List.mem_cons, List.mem_singleton, List.mem_nil_iff, or_false]
  constructor
  · rintro ⟨i, hi, ⟨hb, hm⟩, hrest⟩
    rcases hrest with hb2 | ⟨tl, htl, hm2, hb2⟩
    · exact ⟨t, Or.inl rfl, i, hi, ⟨hb, hm⟩, hb2⟩
    · refine ⟨t ++ tl, ?_, i, hi, ⟨hb, ?_⟩, ?_⟩
      · rcases htl with rfl | rfl | rfl
        · exact Or.inr (Or.inl rfl)
        · exact Or.inr (Or.inr (Or.inl rfl))
        · exact Or.inr (Or.inr (Or.inr rfl))
      · rw [matchAt_append]
        exact (Bool.and_eq_true _ _).mpr ⟨hm, hm2⟩
      · rw [List.length_append]
        rw [← Nat.add_assoc]
        exact hb2
  · rintro ⟨v, hv, i, hi, ⟨hb, hm⟩, hb2⟩
    rcases hv with rfl | rfl | rfl | rfl
    · exact ⟨i, hi, ⟨hb, hm⟩, Or.inl hb2⟩
    all_goals
      rw [matchAt_append] at hm
      rcases (Bool.and_eq_true _ _).mp hm with ⟨hm1, hm2⟩
      refine ⟨i, hi, ⟨hb, hm1⟩, Or.inr ⟨_, by simp, hm2, ?_⟩⟩
      rw [List.length_append, ← Nat.add_assoc] at hb2
      exact hb2

/-- Claim C7: the match regex for a term matches exactly the whole-word
occurrences of the term or of the term with a simple possessive/plural
tail (`'s`, `s`, `es`), case-insensitively; in particular for "cat" it
matches "cats" and "cat's" (and "CATS"), and does not match "category". -/
theorem claim_C7 :
    (∀ term s, build_match_regex term s = matchesVariantWord term s) ∧
      build_match_regex "cat" "There are two cats here." = true ∧
      build_match_regex "cat" "The cat's bowl is full." = true ∧
      build_match_regex "cat" "The CATS sang loudly." = true ∧
      build_match_regex "cat" "That is a category error." = false :=
  ⟨build_match_regex_eq_variants, by decide, by decide, by decide, by decide⟩

/-! ### Claim C9: the remote fallback's failure handling -/

/-- An item whose "text" field cannot make `normalize_ws` raise: it is a
string, or falsy, or missing, or the item is not an object. -/
def itemTextSafe (item : JsonV) : Bool :=
  match item with
  | .obj fields =>
    match jsonGet fields "text" with
    | some (.str _) => true
    | some v => !jsonTruthy v
    | none => true
  | _ => true

theorem tatoebaBestGo_ok (term : String) (a b : Nat) (items : List JsonV)
    (h : items.all itemTextSafe = true) :
    ∀ best n, ∃ r, tatoebaBestGo term a b items best n = Except.ok r := by
  induction items with
  | nil => intro best n; exact ⟨best, rfl⟩
  | cons item items ih =>
    intro best n
    have hsafe : itemTextSafe item = true :=
      List.all_eq_true.mp h item (by simp)
    have htail : items.all itemTextSafe = true := by
      rw [List.all_eq_true]
      intro x hx
      exact List.all_eq_true.mp h x (by simp [hx])
    cases item with
    | null => simpa [tatoebaBestGo] using ih htail best n
    | bool bb => simpa [tatoebaBestGo] using ih htail best n
    | num nn => simpa [tatoebaBestGo] using ih htail best n
    | str ss => simpa [tatoebaBestGo] using ih htail best n
    | arr l => simpa [tatoebaBestGo] using ih htail best n
    | obj fields =>
      cases hg : jsonGet fields "text" with
      | none => simpa [tatoebaBestGo, hg] using ih htail best n
      | some v =>
        by_cases htr : jsonTruthy v = true
        · cases v with
          | str txts =>
            simp only [tatoebaBestGo, hg, htr]
            split_ifs <;> exact ih htail _ _
          | null => simp [jsonTruthy] at htr
          | bool bb =>
            simp [itemTextSafe, hg, htr] at hsafe
          | num nn =>
            simp [itemTextSafe, hg, htr] at hsafe
          | arr l =>
            simp [itemTextSafe, hg, htr] at hsafe
          | obj l =>
            simp [itemTextSafe, hg, htr] at hsafe
        · simpa [tatoebaBestGo, hg, htr] using ih htail best n

/-- Claim C9 (amended): a missing `requests` module, a request exception, a
non-200 status, and a body that fails to parse all make the fallback
return `None` rather than raise; with a 200 response whose body parses to
a JSON object, a non-list `results` value yields `None`, and a list whose
items carry string (or falsy/absent) `"text"` fields is processed without
raising.  (A body that parses to a non-object raises, per the
counterexample.) -/
theorem claim_C9_amended (term : String) (minW maxW st : Nat)
    (body : Option JsonV) (fields : List (String × JsonV))
    (items : List JsonV) :
    (fetch_tatoeba_sentence FetchEnv.noRequests term minW maxW =
        Except.ok none) ∧
      (fetch_tatoeba_sentence FetchEnv.requestError term minW maxW =
        Except.ok none) ∧
      (st ≠ 200 →
        fetch_tatoeba_sentence (FetchEnv.response st body) term minW maxW =
          Except.ok none) ∧
      (fetch_tatoeba_sentence (FetchEnv.response st none) term minW maxW =
        Except.ok none) ∧
      ((∀ its, tatoebaResults fields ≠ JsonV.arr its) →
        fetch_tatoeba_sentence (FetchEnv.response 200 (some (JsonV.obj fields)))
          term minW maxW = Except.ok none) ∧
      (tatoebaResults fields = JsonV.arr items →
        items.all itemTextSafe = true →
        ∃ r, fetch_tatoeba_sentence
          (FetchEnv.response 200 (some (JsonV.obj fields))) term minW maxW =
            Except.ok r) := by
  refine ⟨rfl, rfl, ?_, ?_, ?_, ?_⟩
  · intro h
    simp [fetch_tatoeba_sentence, h]
  · by_cases h : st = 200
    · subst h; simp [fetch_tatoeba_sentence]
    · simp [fetch_tatoeba_sentence, h]
  · intro h
    cases hres : tatoebaResults fields with
    | arr its => exact absurd hres (h its)
    | null => simp [fetch_tatoeba_sentence, hres]
    | bool bb => simp [fetch_tatoeba_sentence, hres]
    | num nn => simp [fetch_tatoeba_sentence, hres]
    | str ss => simp [fetch_tatoeba_sentence, hres]
    | obj l => simp [fetch_tatoeba_sentence, hres]
  · intro hres hsafe
    rcases tatoebaBestGo_ok term minW maxW items hsafe none BIG with ⟨r, hr⟩
    exact ⟨r, by simp [fetch_tatoeba_sentence, hres, hr]⟩

/-- Claim C9 (amended) witness at concrete inputs. -/
theorem claim_C9_witness :
    (404 ≠ 200) ∧
      fetch_tatoeba_sentence (FetchEnv.response 404 (some (JsonV.obj []))) "cat"
          6 28 = Except.ok none :=
  ⟨by decide,
    (claim_C9_amended "cat" 6 28 404 (some (JsonV.obj [])) [] []).2.2.1
      (by decide)⟩

/-- Claim C9 counterexample: a 200 response whose body is valid JSON but
not an object (here the empty list) reaches `data.get("results")` outside
the `try` block and raises `AttributeError` to the caller instead of
returning `None`. -/
theorem claim_C9_counterexample :
    fetch_tatoeba_sentence (FetchEnv.response 200 (some (JsonV.arr []))) "cat"
        6 28 = Except.error "AttributeError" := rfl

/-! ### Claim C10: posting resolution is total; built postings are in range -/

theorem resolvePosting_eq_none {fs : List (DocId × List String)}
    {ref : Posting} :
    resolvePosting fs ref = none ↔ (lookupSentences fs ref.1).length ≤ ref.2 := by
  rw [resolvePosting, List.get?_eq_none]

theorem filterMap_resolve_filter (fs : List (DocId × List String))
    (cands : List Posting) :
    (cands.filter (fun ref =>
        decide (ref.2 < (lookupSentences fs ref.1).length))).filterMap
      (resolvePosting fs) = cands.filterMap (resolvePosting fs) := by
  induction cands with
  | nil => rfl
  | cons ref cands ih =>
    by_cases h : ref.2 < (lookupSentences fs ref.1).length
    · simp only [List.filter_cons, decide_eq_true h, if_pos,
        List.filterMap_cons, ih]
    · have hn : resolvePosting fs ref = none := by
        rw [resolvePosting_eq_none]; omega
      simp only [List.filter_cons, List.filterMap_cons, hn]
      rw [if_neg (by simpa using h)]
      exact ih

theorem lookup_eq_some_of_mem {fs : List (DocId × List String)} {fp : DocId}
    {sents : List String} (hnd : (fs.map Prod.fst).Nodup)
    (hmem : (fp, sents) ∈ fs) : fs.lookup fp = some sents := by
  induction fs with
  | nil => cases hmem
  | cons p fs ih =>
    rcases List.mem_cons.mp hmem with heq | hmem'
    · subst heq
      simp [List.lookup]
    · have hfp : fp ∈ fs.map Prod.fst :=
        List.mem_map.mpr ⟨(fp, sents), hmem', rfl⟩
      have hnotin : p.1 ∉ fs.map Prod.fst := by
        rw [List.map_cons, List.nodup_cons] at hnd
        exact hnd.1
      have hne : (fp == p.1) = false := by
        rw [beq_eq_false_iff_ne]
        intro he
        rw [← he] at hnotin
        exact hnotin hfp
      have hnd' : (fs.map Prod.fst).Nodup := by
        rw [List.map_cons, List.nodup_cons] at hnd
        exact hnd.2
      cases p with
      | mk k v =>
        rw [List.lookup]
        simp only at hne
        rw [hne]
        exact ih hnd' hmem'

theorem mem_enum_lt {α : Type} (l : List α) (i : Nat) (x : α)
    (h : (i, x) ∈ l.enum) : i < l.length := by
  have := List.fst_lt_add_of_mem_enumFrom (by simpa [List.enum] using h)
  simpa using this

theorem invertedIndex_in_range (fs : List (DocId × List String)) (tok : String)
    (hnd : (fs.map Prod.fst).Nodup) :
    ∀ ref ∈ invertedIndex fs tok, ref.2 < (lookupSentences fs ref.1).length := by
  intro ref href
  rw [invertedIndex] at href
  rcases List.mem_flatMap.mp href with ⟨⟨fp, sents⟩, hmem, hin⟩
  rcases List.mem_filterMap.mp hin with ⟨⟨si, s⟩, hsi, hcond⟩
  by_cases hc : (sentenceTokens s).contains tok.data
  · rw [if_pos (by simpa using hc)] at hcond
    have heq : ref = (fp, si) := by
      injection hcond with h1
      exact h1.symm
    subst heq
    have hlen : si < sents.length := mem_enum_lt sents si s hsi
    have : lookupSentences fs fp = sents := by
      rw [lookupSentences, lookup_eq_some_of_mem hnd hmem]
      rfl
    simpa [this] using hlen
  · rw [if_neg (by simpa using hc)] at hcond
    cases hcond

/-- Claim C10: the candidate loop skips out-of-range postings rather than
failing — filtering them away changes nothing about the resolved
candidate sentences — and every posting of the index built by `main` from
the same sentence map is in range, so for the built index that skip is
unreachable (the filter keeps everything). -/
theorem claim_C10 (fs : List (DocId × List String)) (cands : List Posting)
    (tok : String) (hnd : (fs.map Prod.fst).Nodup) :
    (cands.filterMap (resolvePosting fs) =
        (cands.filter (fun ref =>
          decide (ref.2 < (lookupSentences fs ref.1).length))).filterMap
          (resolvePosting fs)) ∧
      (∀ ref ∈ invertedIndex fs tok,
        ref.2 < (lookupSentences fs ref.1).length) ∧
      ((invertedIndex fs tok).filter (fun ref =>
          decide (ref.2 < (lookupSentences fs ref.1).length)) =
        invertedIndex fs tok) := by
  refine ⟨(filterMap_resolve_filter fs cands).symm,
    invertedIndex_in_range fs tok hnd, ?_⟩
  rw [List.filter_eq_self]
  intro ref href
  simpa using invertedIndex_in_range fs tok hnd ref href

/-- Claim C10 witness at concrete inputs. -/
theorem claim_C10_witness :
    (([("d", ["x"])] : List (DocId × List String)).map Prod.fst).Nodup ∧
      (([(("d" : DocId), 5)] : List Posting).filterMap
          (resolvePosting [("d", ["x"])]) =
        (([(("d" : DocId), 5)] : List Posting).filter (fun ref =>
          decide (ref.2 < (lookupSentences [("d", ["x"])] ref.1).length))).filterMap
          (resolvePosting [("d", ["x"])])) :=
  ⟨by decide, (claim_C10 [("d", ["x"])] [("d", 5)] "x" (by decide)).1⟩

/-! ### Claim C5: the selection policy of the candidate loop -/

/-- The qualifying processed sentences of a candidate list, in encounter
order: each candidate is processed (`strip_outer_quotes`, then
`first_sentence`) and kept when it matches the term regex and passes the
Quality Filter. -/
def qualifying (term : String) (min_words max_words : Nat)
    (cands : List String) : List String :=
  (cands.map (fun s => first_sentence (strip_outer_quotes s))).filter
    (fun s2 => build_match_regex term s2 &&
      seems_complete_sentence s2 min_words max_words)

/-- Spec-side selection: the first element whose word count is no larger
than that of every other element (fewest words, ties broken by first-seen
order). -/
def firstMinWords : List String → Option String
  | [] => none
  | s :: rest =>
    match firstMinWords rest with
    | none => some s
    | some t => if sentWords s ≤ sentWords t then some s else some t

theorem firstMinWords_ne_none {l : List String} (h : l ≠ []) :
    firstMinWords l ≠ none := by
  cases l with
  | nil => exact absurd rfl h
  | cons s rest =>
    cases hr : firstMinWords rest with
    | none => simp [firstMinWords, hr]
    | some t =>
      by_cases hle : sentWords s ≤ sentWords t <;> simp [firstMinWords, hr, hle]

theorem firstMinWords_mem {l : List String} :
    ∀ {m : String}, firstMinWords l = some m →
      m ∈ l ∧ ∀ x ∈ l, sentWords m ≤ sentWords x := by
  induction l with
  | nil => intro m h; cases h
  | cons s rest ih =>
    intro m h
    cases hr : firstMinWords rest with
    | none =>
      have hm : m = s := by
        simp only [firstMinWords, hr] at h
        exact (Option.some.inj h).symm
      subst hm
      refine ⟨by simp, ?_⟩
      intro x hx
      rcases List.mem_cons.mp hx with rfl | hx'
      · exact le_rfl
      · exact absurd hr (firstMinWords_ne_none (by
          intro he
          rw [he] at hx'
          cases hx'))
    | some t =>
      rcases ih hr with ⟨hmem, hmin⟩
      by_cases hle : sentWords s ≤ sentWords t
      · have hm : m = s := by
          simp only [firstMinWords, hr, if_pos hle] at h
          exact (Option.some.inj h).symm
        subst hm
        refine ⟨by simp, fun x hx => ?_⟩
        rcases List.mem_cons.mp hx with rfl | hx'
        · exact le_rfl
        · exact le_trans hle (hmin x hx')
      · have hm : m = t := by
          simp only [firstMinWords, hr, if_neg hle] at h
          exact (Option.some.inj h).symm
        subst hm
        refine ⟨List.mem_cons_of_mem s hmem, fun x hx => ?_⟩
        rcases List.mem_cons.mp hx with rfl | hx'
        · omega
        · exact hmin x hx'

theorem firstMinWords_cons_none {x : String} {l : List String}
    (h : firstMinWords l = none) : firstMinWords (x :: l) = some x := by
  simp only [firstMinWords, h]

theorem firstMinWords_cons_some {x m : String} {l : List String}
    (h : firstMinWords l = some m) :
    firstMinWords (x :: l) =
      if sentWords x ≤ sentWords m then some x else some m := by
  simp only [firstMinWords, h]

theorem firstMinWords_skip {b s2 : String} {l : List String}
    (h : sentWords b ≤ sentWords s2) :
    firstMinWords (b :: s2 :: l) = firstMinWords (b :: l) := by
  cases hl : firstMinWords l with
  | none =>
    simp only [firstMinWords, hl, if_pos h]
  | some m =>
    by_cases h2 : sentWords s2 ≤ sentWords m
    · simp only [firstMinWords, hl, if_pos h2, if_pos h,
        if_pos (le_trans h h2)]
    · simp only [firstMinWords, hl, if_neg h2]

/-- In short-circuit mode the loop returns the first qualifying sentence,
falling back to the accumulated `best`. -/
theorem selectLoop_false (term : String) (minW maxW : Nat)
    (cands : List String) :
    ∀ best n, selectLoop term minW maxW false cands best n =
      ((qualifying term minW maxW cands).head?).or best := by
  induction cands with
  | nil => intro best n; simp [selectLoop, qualifying]
  | cons s cands ih =>
    intro best n
    by_cases hq : (build_match_regex term (first_sentence (strip_outer_quotes s)) &&
        seems_complete_sentence (first_sentence (strip_outer_quotes s)) minW maxW)
        = true
    · simp [selectLoop, qualifying, hq, List.filter_cons]
    · simp only [selectLoop, hq, if_neg, Bool.false_eq_true, not_false_iff]
      rw [ih best n]
      simp [qualifying, List.filter_cons, hq]

/-- In prefer-shorter mode, with a current best of `b` at its own word
count, the loop computes the first-seen minimum of `b` and the remaining
qualifying sentences. -/
theorem selectLoop_true_some (term : String) (minW maxW : Nat)
    (cands : List String) :
    ∀ b, selectLoop term minW maxW true cands (some b) (sentWords b) =
      firstMinWords (b :: qualifying term minW maxW cands) := by
  induction cands with
  | nil =>
    intro b
    simp [selectLoop, qualifying, firstMinWords]
  | cons s cands ih =>
    intro b
    by_cases hq : (build_match_regex term (first_sentence (strip_outer_quotes s)) &&
        seems_complete_sentence (first_sentence (strip_outer_quotes s)) minW maxW)
        = true
    · have hqual : qualifying term minW maxW (s :: cands) =
          first_sentence (strip_outer_quotes s) ::
            qualifying term minW maxW cands := by
        simp [qualifying, List.filter_cons, hq]
      by_cases hlt : sentWords (first_sentence (strip_outer_quotes s)) < sentWords b
      · have e : selectLoop term minW maxW true (s :: cands) (some b) (sentWords b) =
            selectLoop term minW maxW true cands
              (some (first_sentence (strip_outer_quotes s)))
              (sentWords (first_sentence (strip_outer_quotes s))) := by
          simp [selectLoop, hq, hlt]
        rw [e, ih, hqual]
        cases hm : firstMinWords
            (first_sentence (strip_outer_quotes s) ::
              qualifying term minW maxW cands) with
        | none =>
          exact absurd hm (firstMinWords_ne_none (by simp))
        | some m =>
          rcases firstMinWords_mem hm with ⟨_, hmin⟩
          have hmle : sentWords m ≤
              sentWords (first_sentence (strip_outer_quotes s)) :=
            hmin _ (by simp)
          rw [firstMinWords_cons_some hm, if_neg (by omega)]
      · have e : selectLoop term minW maxW true (s :: cands) (some b) (sentWords b) =
            selectLoop term minW maxW true cands (some b) (sentWords b) := by
          simp [selectLoop, hq, hlt]
        rw [e, ih, hqual, firstMinWords_skip (by omega)]
    · have hqual : qualifying term minW maxW (s :: cands) =
          qualifying term minW maxW cands := by
        simp [qualifying, List.filter_cons, hq]
      have e : selectLoop term minW maxW true (s :: cands) (some b) (sentWords b) =
          selectLoop term minW maxW true cands (some b) (sentWords b) := by
        simp [selectLoop, hq]
      rw [e, ih, hqual]

/-- Claim C5 helper: every accepted sentence respects the upper word
bound (the Quality Filter's first check). -/
theorem seems_complete_word_bound {s : String} {a b : Nat}
    (h : seems_complete_sentence s a b = true) : sentWords s ≤ b := by
  by_contra hb
  have hcond : ¬(a ≤ (pySplit s.data).length ∧ (pySplit s.data).length ≤ b) := by
    intro hc
    exact hb (by simpa [sentWords] using hc.2)
  have hfalse : seems_complete_sentence s a b = false := by
    simp only [seems_complete_sentence]
    rw [if_pos hcond]
  rw [hfalse] at h
  cases h

theorem qualifying_word_bound {term : String} {minW maxW : Nat}
    {cands : List String} {q : String}
    (hq : q ∈ qualifying term minW maxW cands) : sentWords q ≤ maxW := by
  rw [qualifying] at hq
  have := List.of_mem_filter hq
  rcases (Bool.and_eq_true _ _).mp this with ⟨_, hsc⟩
  exact seems_complete_word_bound hsc

/-- In prefer-shorter mode starting from an empty best with sentinel `n`
above every qualifying word count, the loop computes the first-seen
minimum of the qualifying sentences. -/
theorem selectLoop_true_none (term : String) (minW maxW : Nat)
    (cands : List String) :
    ∀ n, (∀ q ∈ qualifying term minW maxW cands, sentWords q < n) →
      selectLoop term minW maxW true cands none n =
        firstMinWords (qualifying term minW maxW cands) := by
  induction cands with
  | nil => intro n _; simp [selectLoop, qualifying, firstMinWords]
  | cons s cands ih =>
    intro n hn
    by_cases hq : (build_match_regex term (first_sentence (strip_outer_quotes s)) &&
        seems_complete_sentence (first_sentence (strip_outer_quotes s)) minW maxW)
        = true
    · have hqual : qualifying term minW maxW (s :: cands) =
          first_sentence (strip_outer_quotes s) ::
            qualifying term minW maxW cands := by
        simp [qualifying, List.filter_cons, hq]
      have hlt : sentWords (first_sentence (strip_outer_quotes s)) < n := by
        apply hn
        rw [hqual]
        simp
      have e : selectLoop term minW maxW true (s :: cands) none n =
          selectLoop term minW maxW true cands
            (some (first_sentence (strip_outer_quotes s)))
            (sentWords (first_sentence (strip_outer_quotes s))) := by
        simp [selectLoop, hq, hlt]
      rw [e, selectLoop_true_some, hqual]
    · have hqual : qualifying term minW maxW (s :: cands) =
          qualifying term minW maxW cands := by
        simp [qualifying, List.filter_cons, hq]
      have e : selectLoop term minW maxW true (s :: cands) none n =
          selectLoop term minW maxW true cands none n := by
        simp [selectLoop, hq]
      rw [e, ih n (by rw [← hqual]; exact hn), hqual]

/-- Claim C5: with prefer-shorter off, the loop returns the first
qualifying candidate (stopping there); with prefer-shorter on, it returns
the qualifying candidate of fewest words, ties broken by first-seen
order. -/
theorem claim_C5 (term : String) (minW maxW : Nat) (cands : List String)
    (hmax : maxW < BIG) :
    (selectLoop term minW maxW false cands none BIG =
        (qualifying term minW maxW cands).head?) ∧
      (selectLoop term minW maxW true cands none BIG =
        firstMinWords (qualifying term minW maxW cands)) ∧
      (∀ s, firstMinWords (qualifying term minW maxW cands) = some s →
        s ∈ qualifying term minW maxW cands ∧
          ∀ q ∈ qualifying term minW maxW cands,
            sentWords s ≤ sentWords q) := by
  refine ⟨?_, ?_, ?_⟩
  · rw [selectLoop_false]
    cases (qualifying term minW maxW cands).head? <;> rfl
  · exact selectLoop_true_none term minW maxW cands BIG
      (fun q hq => lt_of_le_of_lt (qualifying_word_bound hq) hmax)
  · intro s hs
    exact firstMinWords_mem hs

/-- Claim C5 witness at concrete inputs. -/
theorem claim_C5_witness :
    28 < BIG ∧
      selectLoop "cat" 2 28 false
          ["bad", "The cat was on the mat tonight."] none BIG =
        (qualifying "cat" 2 28 ["bad", "The cat was on the mat tonight."]).head? :=
  ⟨by decide,
    (claim_C5 "cat" 2 28 ["bad", "The cat was on the mat tonight."]
      (by decide)).1⟩

/-! ### Claim C3: indexed retrieval vs. brute-force scan -/

theorem mem_of_lookup_eq_some {fs : List (DocId × List String)} {fp : DocId}
    {sents : List String} (h : fs.lookup fp = some sents) : (fp, sents) ∈ fs := by
  induction fs with
  | nil => cases h
  | cons p fs ih =>
    cases p with
    | mk k v =>
      rw [List.lookup] at h
      by_cases he : (fp == k) = true
      · rw [he] at h
        injection h with h
        subst h
        have : fp = k := eq_of_beq he
        subst this
        exact List.mem_cons_self _ _
      · rw [Bool.not_eq_true] at he
        rw [he] at h
        exact List.mem_cons_of_mem _ (ih h)

theorem resolved_mem_flatMap (fs : List (DocId × List String))
    (cands : List Posting) :
    ∀ s ∈ cands.filterMap (resolvePosting fs), s ∈ fs.flatMap (fun p => p.2) := by
  intro s hs
  rcases List.mem_filterMap.mp hs with ⟨ref, _, hres⟩
  rw [resolvePosting] at hres
  have hsent : s ∈ lookupSentences fs ref.1 := List.get?_mem hres
  rw [lookupSentences] at hsent
  cases hl : fs.lookup ref.1 with
  | none =>
    rw [hl] at hsent
    cases hsent
  | some sents =>
    rw [hl] at hsent
    exact List.mem_flatMap.mpr
      ⟨(ref.1, sents), mem_of_lookup_eq_some hl, by simpa using hsent⟩

theorem qualifying_mono {term : String} {a b : Nat} {l₁ l₂ : List String}
    (hsub : ∀ x ∈ l₁, x ∈ l₂) {s : String}
    (hs : s ∈ qualifying term a b l₁) : s ∈ qualifying term a b l₂ := by
  rw [qualifying] at hs ⊢
  rcases List.mem_filter.mp hs with ⟨hmem, htest⟩
  rcases List.mem_map.mp hmem with ⟨raw, hraw, rfl⟩
  exact List.mem_filter.mpr ⟨List.mem_map.mpr ⟨raw, hsub raw hraw, rfl⟩, htest⟩

theorem selectLoop_mem {term : String} {minW maxW : Nat} {prefer : Bool}
    {cands : List String} {s : String} (hmax : maxW < BIG)
    (h : selectLoop term minW maxW prefer cands none BIG = some s) :
    s ∈ qualifying term minW maxW cands := by
  cases prefer with
  | false =>
    rw [selectLoop_false] at h
    cases hh : (qualifying term minW maxW cands).head? with
    | none =>
      rw [hh] at h
      cases h
    | some q =>
      rw [hh] at h
      injection h with h
      subst h
      exact List.mem_of_mem_head? hh
  | true =>
    rw [selectLoop_true_none term minW maxW cands BIG
      (fun q hq => lt_of_le_of_lt (qualifying_word_bound hq) hmax)] at h
    exact (firstMinWords_mem h).1

theorem selectLoop_ne_none {term : String} {minW maxW : Nat} {prefer : Bool}
    {cands : List String} (hmax : maxW < BIG)
    (hne : qualifying term minW maxW cands ≠ []) :
    selectLoop term minW maxW prefer cands none BIG ≠ none := by
  cases prefer with
  | false =>
    rw [selectLoop_false]
    cases hh : (qualifying term minW maxW cands).head? with
    | none => exact absurd (List.head?_eq_none_iff.mp hh) hne
    | some q => simp [Option.or]
  | true =>
    rw [selectLoop_true_none term minW maxW cands BIG
      (fun q hq => lt_of_le_of_lt (qualifying_word_bound hq) hmax)]
    exact firstMinWords_ne_none hne

/-- Claim C3 (amended): indexed retrieval is sound with respect to the
brute-force scan — whatever it returns is a qualifying processed sentence
of the corpus, and whenever it returns a sentence the brute-force scan
finds one too.  (Exact equality of the two results fails, per the
counterexample: the index can miss qualifying sentences whose token form
differs from the term variants.) -/
theorem claim_C3_amended (term : String) (fs : List (DocId × List String))
    (minW maxW : Nat) (prefer : Bool) (s : String) (hmax : maxW < BIG)
    (hidx : search_sources_for_term term fs minW maxW prefer
      (some (invertedIndex fs)) = some s) :
    s ∈ qualifying term minW maxW (fs.flatMap (fun p => p.2)) ∧
      search_sources_for_term term fs minW maxW prefer none ≠ none := by
  have hbrute_def : search_sources_for_term term fs minW maxW prefer none =
      selectLoop term minW maxW prefer (fs.flatMap (fun p => p.2)) none BIG := by
    simp [search_sources_for_term]
  have hidx_def : search_sources_for_term term fs minW maxW prefer
      (some (invertedIndex fs)) =
      (if (dedupFirst ((term_variants term).flatMap (invertedIndex fs))).isEmpty
       then
        selectLoop term minW maxW prefer (fs.flatMap (fun p => p.2)) none BIG
       else
        selectLoop term minW maxW prefer
          ((dedupFirst ((term_variants term).flatMap
            (invertedIndex fs))).filterMap (resolvePosting fs)) none BIG) := by
    simp [search_sources_for_term]
  by_cases hE : (dedupFirst ((term_variants term).flatMap
      (invertedIndex fs))).isEmpty
  · rw [hidx_def, if_pos hE] at hidx
    refine ⟨selectLoop_mem hmax hidx, ?_⟩
    rw [hbrute_def, hidx]
    simp
  · rw [hidx_def, if_neg hE] at hidx
    have hmem : s ∈ qualifying term minW maxW (fs.flatMap (fun p => p.2)) :=
      qualifying_mono (resolved_mem_flatMap fs _) (selectLoop_mem hmax hidx)
    refine ⟨hmem, ?_⟩
    rw [hbrute_def]
    exact selectLoop_ne_none hmax (fun hnil => by rw [hnil] at hmem; cases hmem)

/-- Claim C3 (amended) witness at a concrete corpus. -/
theorem claim_C3_witness :
    28 < BIG ∧
      "The cat was on the mat tonight." ∈
        qualifying "cat" 2 28
          (([(("d" : DocId), ["The cat was on the mat tonight."])]).flatMap
            (fun p => p.2)) ∧
      search_sources_for_term "cat"
          [(("d" : DocId), ["The cat was on the mat tonight."])] 2 28 false none
        ≠ none :=
  ⟨by decide,
    (claim_C3_amended "cat" [("d", ["The cat was on the mat tonight."])] 2 28
      false "The cat was on the mat tonight." (by decide) rfl).1,
    (claim_C3_amended "cat" [("d", ["The cat was on the mat tonight."])] 2 28
      false "The cat was on the mat tonight." (by decide) rfl).2⟩

/-- The corpus of the C3 counterexample: the first sentence qualifies and
contains "Cats" only inside the raw token `'cats'` (the tokenizer keeps
apostrophes inside tokens), the second produces a posting for the exact
token "cat" but fails the Quality Filter. -/
def exCorpus : List (DocId × List String) :=
  [("d", ["'Cats' was on the old mat tonight.", "cat"])]

/-- Claim C3 counterexample: a term present in a qualifying sentence for
which the indexed path returns nothing (its postings are nonempty but
cover only a non-qualifying sentence) while the brute-force scan returns
the qualifying sentence — under both selection policies. -/
theorem claim_C3_counterexample :
    build_match_regex "cat"
        (first_sentence (strip_outer_quotes "'Cats' was on the old mat tonight."))
        = true ∧
      seems_complete_sentence
          (first_sentence (strip_outer_quotes "'Cats' was on the old mat tonight."))
          2 28 = true ∧
      search_sources_for_term "cat" exCorpus 2 28 false
          (some (invertedIndex exCorpus)) = none ∧
      search_sources_for_term "cat" exCorpus 2 28 true
          (some (invertedIndex exCorpus)) = none ∧
      search_sources_for_term "cat" exCorpus 2 28 false none =
        some "Cats' was on the old mat tonight." ∧
      search_sources_for_term "cat" exCorpus 2 28 true none =
        some "Cats' was on the old mat tonight." :=
  ⟨rfl, rfl, rfl, rfl, rfl, rfl⟩

/-! ### Claim C8: segmentation idempotence.  Toolkit about the splitter. -/

theorem isTermCh_not_ws {c : Char} (h : isTermCh c = true) : pyWS c = false := by
  rw [isTermCh] at h
  rcases Bool.or_eq_true _ _ |>.mp h with h1 | h1
  · rcases Bool.or_eq_true _ _ |>.mp h1 with h2 | h2 <;>
      (rw [decide_eq_true_eq] at h2; subst h2; rfl)
  · rw [decide_eq_true_eq] at h1; subst h1; rfl

theorem isTermCh_not_close {c : Char} (h : isTermCh c = true) :
    isCloseCh c = false := by
  rw [isTermCh] at h
  rcases Bool.or_eq_true _ _ |>.mp h with h1 | h1
  · rcases Bool.or_eq_true _ _ |>.mp h1 with h2 | h2 <;>
      (rw [decide_eq_true_eq] at h2; subst h2; rfl)
  · rw [decide_eq_true_eq] at h1; subst h1; rfl

theorem dropWhile_append_all {p : Char → Bool} {q : List Char}
    (hq : ∀ e ∈ q, p e = true) (l : List Char) :
    (q ++ l).dropWhile p = l.dropWhile p := by
  induction q with
  | nil => rfl
  | cons e q ih =>
    rw [List.cons_append, List.dropWhile_cons, if_pos (hq e (by simp))]
    exact ih (fun x hx => hq x (by simp [hx]))

/-- The shape that prevents a separator match at this suffix whatever
follows it: after a run of closing-quote characters comes a character
that is neither closing-quote nor whitespace. -/
def SepNever (v : List Char) : Prop :=
  ∃ q d v', v = q ++ d :: v' ∧ (∀ e ∈ q, isCloseCh e = true) ∧
    isCloseCh d = false ∧ pyWS d = false

theorem sepSplit_append_none {v : List Char} (h : SepNever v) (X : List Char) :
    sepSplit (v ++ X) = none := by
  rcases h with ⟨q, d, v', rfl, hq, hd1, hd2⟩
  rw [sepSplit]
  have e1 : ((q ++ d :: v') ++ X).dropWhile isCloseCh = d :: (v' ++ X) := by
    rw [List.append_assoc, dropWhile_append_all hq, List.cons_append,
      List.dropWhile_cons, if_neg (by simp [hd1])]
  simp only [e1, List.head?_cons]
  rw [if_neg (by simp [hd2])]

theorem splitF_nilCS (n : Nat) (acc : List Char) :
    splitF n acc [] = [acc.reverse] := by
  cases n <;> rfl

theorem joinSpace_single (p : List Char) : joinSpace [p] = p := by
  simp [joinSpace]

theorem joinSpace_cons {ps : List (List Char)} (h : ps ≠ []) (p : List Char) :
    joinSpace (p :: ps) = p ++ ' ' :: joinSpace ps := by
  cases ps with
  | nil => exact absurd rfl h
  | cons q rest => simp [joinSpace]

theorem snoc_decomp {xs : List Char} {x : Char} {u : List Char} {c : Char}
    {v : List Char} (h : xs ++ [x] = u ++ c :: v) :
    (v = [] ∧ u = xs ∧ c = x) ∨ ∃ v'', xs = u ++ c :: v'' ∧ v = v'' ++ [x] := by
  rcases v.eq_nil_or_concat with rfl | ⟨v'', y, rfl⟩
  · left
    have := List.append_inj' h rfl
    refine ⟨rfl, this.1.symm, ?_⟩
    have h2 := this.2
    injection h2 with h3
    exact h3.symm
  · right
    have h' : xs ++ [x] = (u ++ c :: v'') ++ [y] := by
      rw [h]; simp
    have h2 := List.append_inj' h' rfl
    have h3 : x = y := by
      have h4 := h2.2
      injection h4
    refine ⟨v'', h2.1, ?_⟩
    rw [List.concat_eq_append, h3]

/-- A suffix of the piece that the pass-1 scan certified (a terminator
followed, within the piece, by something other than quotes-then-end) keeps
blocking the separator when the piece's own final terminator is appended:
used to carry the scan-time certificates into the emitted piece. -/
theorem sepNever_snoc {v'' : List Char} {c : Char} {rest : List Char}
    (hc : isTermCh c = true) (h : sepSplit (v'' ++ c :: rest) = none) :
    SepNever (v'' ++ [c]) := by
  cases hr : v''.dropWhile isCloseCh with
  | nil =>
    have hall : ∀ e ∈ v'', isCloseCh e = true := by
      intro e he
      exact List.dropWhile_eq_nil_iff.mp hr e he
    exact ⟨v'', c, [], rfl, hall, isTermCh_not_close hc, isTermCh_not_ws hc⟩
  | cons d rr =>
    have hsplit : v'' = v''.takeWhile isCloseCh ++ (d :: rr) := by
      conv_lhs => rw [← List.takeWhile_append_dropWhile (p := isCloseCh) (l := v'')]
      rw [hr]
    have hq : ∀ e ∈ v''.takeWhile isCloseCh, isCloseCh e = true :=
      fun e he => List.mem_takeWhile_imp he
    have hd1 : isCloseCh d = false := by
      have := List.head?_dropWhile_not isCloseCh v''
      rw [hr] at this
      simpa using this
    have e1 : (v'' ++ c :: rest).dropWhile isCloseCh = d :: (rr ++ c :: rest) := by
      conv_lhs => rw [hsplit]
      rw [List.append_assoc, dropWhile_append_all hq, List.cons_append,
        List.dropWhile_cons, if_neg (by simp [hd1])]
    have hd2 : pyWS d = false := by
      rw [sepSplit] at h
      simp only [e1, List.head?_cons] at h
      by_cases hw : pyWS d = true
      · rw [if_pos (by simp [hw])] at h; cases h
      · simpa using hw
    refine ⟨v''.takeWhile isCloseCh, d, rr ++ [c], ?_, hq, hd1, hd2⟩
    conv_lhs => rw [hsplit]
    simp

/-- Basic shape of a split piece: nonempty, fully normalized at both ends,
whitespace is single spaces. -/
def PieceBasic (p : List Char) : Prop :=
  p ≠ [] ∧ WSSpace p ∧ NoWS2 p ∧ HeadNot pyWS p ∧ LastNot pyWS p

/-- No decomposition of `p` around a terminator admits a separator match,
whatever text follows `p` (each non-final suffix is `SepNever`). -/
def InnerRobust (p : List Char) : Prop :=
  ∀ u c v, p = u ++ c :: v → isTermCh c = true → v ≠ [] → SepNever v

/-- No decomposition of `p` around a terminator admits a separator match
within `p` itself (enough for the final piece, which nothing follows). -/
def InnerWeak (p : List Char) : Prop :=
  ∀ u c v, p = u ++ c :: v → isTermCh c = true → sepSplit v = none

/-- The invariants of the list of pieces produced by the splitter on
normalized text: every piece is basic; every piece but the last ends with
a terminator and blocks separators robustly; the last blocks separators
within itself. -/
inductive GoodPieces : List (List Char) → Prop
  | last (p : List Char) : PieceBasic p → InnerWeak p → GoodPieces [p]
  | cons (p : List Char) (ps : List (List Char)) :
      PieceBasic p → InnerRobust p →
      (∃ u c, p = u ++ [c] ∧ isTermCh c = true) →
      GoodPieces ps → GoodPieces (p :: ps)

theorem GoodPieces.ne_nil {ps : List (List Char)} (h : GoodPieces ps) :
    ps ≠ [] := by
  cases h <;> simp

theorem GoodPieces.basic {ps : List (List Char)} (h : GoodPieces ps) :
    ∀ p ∈ ps, PieceBasic p := by
  induction h with
  | last p hb _ => intro q hq; rw [List.mem_singleton] at hq; subst hq; exact hb
  | cons p ps hb _ _ _ ih =>
    intro q hq
    rcases List.mem_cons.mp hq with rfl | hq'
    · exact hb
    · exact ih q hq'

/-- Scanning a region that never admits a separator just accumulates it. -/
theorem splitF_consume (p : List Char) :
    ∀ (X acc : List Char) (f : Nat),
    (∀ u c v, p = u ++ c :: v → isTermCh c = true → sepSplit (v ++ X) = none) →
    splitF (p.length + f) acc (p ++ X) = splitF f (p.reverse ++ acc) X := by
  induction p with
  | nil => intro X acc f _; simp
  | cons c p' ih =>
    intro X acc f hno
    have hlen : (c :: p').length + f = (p'.length + f) + 1 := by
      simp [Nat.add_assoc, Nat.add_comm 1 f]
    rw [hlen]
    have hstep : splitF ((p'.length + f) + 1) acc ((c :: p') ++ X) =
        splitF (p'.length + f) (c :: acc) (p' ++ X) := by
      by_cases hc : isTermCh c = true
      · have hnone : sepSplit (p' ++ X) = none := hno [] c p' rfl hc
        simp [splitF, hc, hnone]
      · simp [splitF, hc]
    rw [hstep, ih X (c :: acc) f
      (fun u c' v hv hc' => hno (c :: u) c' v (by rw [hv]; rfl) hc')]
    simp

theorem goodPieces_join_ne_nil {ps : List (List Char)} (h : GoodPieces ps) :
    joinSpace ps ≠ [] := by
  cases h with
  | last p hb _ =>
    rw [joinSpace_single]
    exact hb.1
  | cons p ps hb _ _ hps =>
    rw [joinSpace_cons hps.ne_nil]
    intro he
    rcases List.append_eq_nil.mp he with ⟨h1, _⟩
    exact hb.1 h1

theorem goodPieces_join_headNot {ps : List (List Char)} (h : GoodPieces ps) :
    HeadNot pyWS (joinSpace ps) := by
  cases h with
  | last p hb _ =>
    rw [joinSpace_single]
    exact hb.2.2.2.1
  | cons p ps hb _ _ hps =>
    rw [joinSpace_cons hps.ne_nil]
    intro x hx
    rw [← prefix_head? ⟨' ' :: joinSpace ps, rfl⟩ hb.1] at hx
    exact hb.2.2.2.1 x hx

/-- The splitter recovers the pieces from their single-space join. -/
theorem splitF_joinSpace {ps : List (List Char)} (h : GoodPieces ps) :
    ∀ f, (joinSpace ps).length ≤ f → splitF f [] (joinSpace ps) = ps := by
  induction h with
  | last p hb hweak =>
    intro f hf
    rw [joinSpace_single] at hf ⊢
    have hf' : f = p.length + (f - p.length) := by omega
    rw [hf']
    have e1 : splitF (p.length + (f - p.length)) [] (p ++ []) =
        splitF (f - p.length) (p.reverse ++ []) [] := by
      apply splitF_consume
      intro u c v hv hc
      rw [List.append_nil]
      exact hweak u c v hv hc
    rw [List.append_nil, List.append_nil] at e1
    rw [e1, splitF_nilCS]
    simp
  | cons p ps hb hrobust hterm hps ih =>
    intro f hf
    rcases hterm with ⟨u0, c0, rfl, hc0⟩
    rw [joinSpace_cons hps.ne_nil] at hf ⊢
    set J := joinSpace ps with hJ
    have hshape : (u0 ++ [c0]) ++ ' ' :: J = u0 ++ (c0 :: ' ' :: J) := by
      simp
    rw [hshape] at hf ⊢
    have hf0 : u0.length + (f - u0.length) = f := by
      rw [List.length_append, List.length_cons] at hf
      omega
    rw [← hf0]
    have e1 : splitF (u0.length + (f - u0.length)) [] (u0 ++ (c0 :: ' ' :: J)) =
        splitF (f - u0.length) (u0.reverse ++ []) (c0 :: ' ' :: J) := by
      apply splitF_consume
      intro u c v hv hc
      have hsn : SepNever (v ++ [c0]) := by
        apply hrobust u c (v ++ [c0]) (by rw [hv]; simp) hc
        simp
      have := sepSplit_append_none hsn (' ' :: J)
      simpa using this
    rw [e1]
    have hlen2 : 2 + J.length ≤ f - u0.length := by
      rw [List.length_append, List.length_cons, List.length_cons] at hf
      omega
    have hf1 : f - u0.length = (f - u0.length - 1) + 1 := by omega
    have hsep : sepSplit (' ' :: J) = some J := by
      rw [sepSplit]
      have e2 : (' ' :: J).dropWhile isCloseCh = ' ' :: J := by
        rw [List.dropWhile_cons, if_neg (by simp [isCloseCh])]
      simp only [e2, List.head?_cons]
      rw [if_pos (by simp [pyWS])]
      have e3 : (' ' :: J).dropWhile pyWS = J.dropWhile pyWS := by
        rw [List.dropWhile_cons, if_pos (by simp [pyWS])]
      rw [e3]
      have e4 : J.dropWhile pyWS = J :=
        trimLeftP_eq_self (goodPieces_join_headNot hps)
      rw [e4]
    have hstep : splitF ((f - u0.length - 1) + 1) (u0.reverse ++ [])
        (c0 :: ' ' :: J) =
        ((u0.reverse ++ []).reverse ++ [c0]) :: splitF (f - u0.length - 1) [] J := by
      simp [splitF, hc0, hsep]
    rw [hf1, hstep, ih (f - u0.length - 1) (by omega)]
    simp

theorem sepSplit_eq_some {cs r : List Char} (h : sepSplit cs = some r) :
    r = (cs.dropWhile isCloseCh).dropWhile pyWS ∧
      ∃ w, (cs.dropWhile isCloseCh).head? = some w ∧ pyWS w = true := by
  cases hh : (cs.dropWhile isCloseCh).head? with
  | none =>
    simp only [sepSplit, hh] at h
    exact Option.noConfusion h
  | some w =>
    simp only [sepSplit, hh] at h
    by_cases hw : pyWS w = true
    · rw [if_pos hw] at h
      injection h with h
      exact ⟨h.symm, w, rfl, hw⟩
    · rw [if_neg hw] at h; cases h

theorem sepSplit_suffix {cs r : List Char} (h : sepSplit cs = some r) :
    r <:+ cs := by
  rcases sepSplit_eq_some h with ⟨rfl, _⟩
  exact (List.dropWhile_suffix _).trans (List.dropWhile_suffix _)

theorem sepSplit_some_ne_nil {cs r : List Char} (h : sepSplit cs = some r)
    (hlast : LastNot pyWS cs) : r ≠ [] := by
  rcases sepSplit_eq_some h with ⟨hr, w, hw, hws⟩
  intro hnil
  subst hnil
  have hallws : ∀ x ∈ cs.dropWhile isCloseCh, pyWS x = true := by
    intro x hx
    exact List.dropWhile_eq_nil_iff.mp hr.symm x hx
  have hmne : cs.dropWhile isCloseCh ≠ [] := by
    intro he
    rw [he] at hw
    cases hw
  cases hx : (cs.dropWhile isCloseCh).getLast? with
  | none => exact hmne (List.getLast?_eq_none_iff.mp hx)
  | some x =>
    have hxin : x ∈ cs.dropWhile isCloseCh := by
      have := List.getLast?_eq_getLast _ hmne
      rw [this] at hx
      injection hx with hx
      rw [← hx]
      exact List.getLast_mem hmne
    have hxws : pyWS x = true := hallws x hxin
    have hcseq : cs.getLast? = some x := by
      rw [← suffix_getLast? (List.dropWhile_suffix isCloseCh) hmne, hx]
    have := hlast x hcseq
    rw [hxws] at this
    cases this

/-- The splitter's output pieces on globally normalized input satisfy the
`GoodPieces` invariants: each piece inherits the normalization of the
whole string, each cut leaves a nonempty remainder starting with a
non-space character, and the scan-time separator failures become the
pieces' inner certificates. -/
theorem splitF_good : ∀ (fuel : Nat) (acc cs : List Char),
    cs.length ≤ fuel →
    WSSpace (acc.reverse ++ cs) → NoWS2 (acc.reverse ++ cs) →
    HeadNot pyWS (acc.reverse ++ cs) → LastNot pyWS (acc.reverse ++ cs) →
    acc.reverse ++ cs ≠ [] →
    (∀ u c v, acc.reverse = u ++ c :: v → isTermCh c = true →
      sepSplit (v ++ cs) = none) →
    GoodPieces (splitF fuel acc cs) := by
  intro fuel
  induction fuel with
  | zero =>
    intro acc cs hlen hWS hN2 hhead hlast hne hC5
    have hcs : cs = [] := List.length_eq_zero.mp (Nat.le_zero.mp hlen)
    subst hcs
    rw [List.append_nil] at hWS hN2 hhead hlast hne
    rw [splitF_nilCS]
    refine GoodPieces.last _ ⟨hne, hWS, hN2, hhead, hlast⟩ ?_
    intro u c v hv hc
    have := hC5 u c v hv hc
    simpa using this
  | succ fuel ih =>
    intro acc cs hlen hWS hN2 hhead hlast hne hC5
    cases cs with
    | nil =>
      rw [List.append_nil] at hWS hN2 hhead hlast hne
      rw [splitF_nilCS]
      refine GoodPieces.last _ ⟨hne, hWS, hN2, hhead, hlast⟩ ?_
      intro u c v hv hc
      have := hC5 u c v hv hc
      simpa using this
    | cons c rest =>
      have hglob : (c :: acc).reverse ++ rest = acc.reverse ++ c :: rest := by
        simp
      have hlen' : rest.length ≤ fuel := by
        rw [List.length_cons] at hlen
        omega
      have hrec : ∀ (hC5' : ∀ u c' v, (c :: acc).reverse = u ++ c' :: v →
          isTermCh c' = true → sepSplit (v ++ rest) = none),
          GoodPieces (splitF fuel (c :: acc) rest) := by
        intro hC5'
        apply ih (c :: acc) rest hlen'
        · rw [hglob]; exact hWS
        · rw [hglob]; exact hN2
        · rw [hglob]; exact hhead
        · rw [hglob]; exact hlast
        · rw [hglob]; exact hne
        · exact hC5'
      by_cases hc : isTermCh c = true
      · cases hsep : sepSplit rest with
        | none =>
          have e : splitF (fuel + 1) acc (c :: rest) =
              splitF fuel (c :: acc) rest := by
            simp [splitF, hc, hsep]
          rw [e]
          apply hrec
          intro u c' v hv hterm'
          rw [List.reverse_cons] at hv
          rcases snoc_decomp hv with ⟨rfl, rfl, rfl⟩ | ⟨v'', hacc, rfl⟩
          · simpa using hsep
          · have := hC5 u c' v'' hacc hterm'
            rw [List.append_assoc]
            simpa using this
        | some rest' =>
          have e : splitF (fuel + 1) acc (c :: rest) =
              (acc.reverse ++ [c]) :: splitF fuel [] rest' := by
            simp [splitF, hc, hsep]
          rw [e]
          have hprefix : (acc.reverse ++ [c]) ++ rest = acc.reverse ++ c :: rest := by
            simp
          have hrestne : rest ≠ [] := by
            intro he
            subst he
            rcases sepSplit_eq_some hsep with ⟨_, w, hw, _⟩
            cases hw
          have hrestlast : LastNot pyWS rest := by
            intro x hx
            rw [suffix_getLast? (⟨acc.reverse ++ [c], by simp⟩ :
              rest <:+ acc.reverse ++ c :: rest) hrestne] at hx
            exact hlast x hx
          have hr'ne : rest' ≠ [] := sepSplit_some_ne_nil hsep hrestlast
          have hr'suf : rest' <:+ acc.reverse ++ c :: rest := by
            refine (sepSplit_suffix hsep).trans ?_
            exact ⟨acc.reverse ++ [c], by simp⟩
          refine GoodPieces.cons _ _ ⟨by simp, ?_, ?_, ?_, ?_⟩ ?_ ?_ ?_
          · -- WSSpace of the piece
            intro x hx hxws
            exact hWS x (by rw [← hprefix]; exact List.mem_append_left _ hx) hxws
          · -- NoWS2 of the piece
            exact noWS2_pref ⟨rest, hprefix⟩ hN2
          · -- HeadNot of the piece
            intro x hx
            rw [prefix_head? ⟨rest, hprefix⟩ (by simp)] at hx
            exact hhead x hx
          · -- LastNot of the piece
            intro x hx
            rw [List.getLast?_concat] at hx
            injection hx with hx
            subst hx
            exact isTermCh_not_ws hc
          · -- InnerRobust of the piece
            intro u c' v hv hterm' hvne
            rcases snoc_decomp hv with ⟨rfl, _, _⟩ | ⟨v'', hacc, rfl⟩
            · exact absurd rfl hvne
            · exact sepNever_snoc hc (by simpa using hC5 u c' v'' hacc hterm')
          · -- the piece ends with a terminator
            exact ⟨acc.reverse, c, rfl, hc⟩
          · -- the remaining pieces
            apply ih [] rest'
            · have h1 : rest'.length ≤ rest.length :=
                List.IsSuffix.length_le (sepSplit_suffix hsep)
              omega
            · intro x hx hxws
              exact hWS x (hr'suf.subset (by simpa using hx)) hxws
            · show NoWS2 ([].reverse ++ rest')
              rw [List.reverse_nil, List.nil_append]
              exact noWS2_suffix hr'suf hN2
            · rcases sepSplit_eq_some hsep with ⟨hr, _⟩
              intro x hx
              simp only [List.reverse_nil, List.nil_append] at hx
              rw [hr] at hx
              have := List.head?_dropWhile_not pyWS (rest.dropWhile isCloseCh)
              rw [hx] at this
              simpa using this
            · intro x hx
              simp only [List.reverse_nil, List.nil_append] at hx
              rw [suffix_getLast? hr'suf hr'ne] at hx
              exact hlast x hx
            · show [].reverse ++ rest' ≠ []
              rw [List.reverse_nil, List.nil_append]
              exact hr'ne
            · intro u c' v hv
              simp at hv
      · have e : splitF (fuel + 1) acc (c :: rest) =
            splitF fuel (c :: acc) rest := by
          simp [splitF, hc]
        rw [e]
        apply hrec
        intro u c' v hv hterm'
        rw [List.reverse_cons] at hv
        rcases snoc_decomp hv with ⟨rfl, rfl, rfl⟩ | ⟨v'', hacc, rfl⟩
        · rw [hterm'] at hc
          cases hc rfl
        · have := hC5 u c' v'' hacc hterm'
          rw [List.append_assoc]
          simpa using this

/-! ### Claim C8: the merge pass only regroups, and the final assembly -/

theorem mergeGo_ne_nil (l : List (List Char)) (b : List Char) :
    mergeGo b l ≠ [] := by
  induction l generalizing b with
  | nil => simp [mergeGo]
  | cons piece more ih =>
    rw [mergeGo]
    by_cases h : looks_like_abbrev_end b = true
    · rw [if_pos h]; exact ih _
    · rw [if_neg h]; simp

theorem mergeGo_flatMap (l : List (List Char)) :
    ∀ b, (mergeGo b l).flatMap (fun q => ' ' :: q) = ' ' :: joinSpace (b :: l) := by
  induction l with
  | nil => intro b; simp [mergeGo, joinSpace]
  | cons piece more ih =>
    intro b
    rw [mergeGo]
    by_cases h : looks_like_abbrev_end b = true
    · rw [if_pos h, ih]
      congr 1
      simp [joinSpace, List.flatMap_cons, List.append_assoc]
    · rw [if_neg h, List.flatMap_cons, ih piece]
      simp [joinSpace, List.flatMap_cons, List.append_assoc]

theorem flatMap_eq_cons_joinSpace {L : List (List Char)} (h : L ≠ []) :
    L.flatMap (fun q => ' ' :: q) = ' ' :: joinSpace L := by
  cases L with
  | nil => exact absurd rfl h
  | cons p ps => simp [joinSpace, List.flatMap_cons]

theorem mergeGo_join (l : List (List Char)) (b : List Char) :
    joinSpace (mergeGo b l) = joinSpace (b :: l) := by
  have h1 := mergeGo_flatMap l b
  rw [flatMap_eq_cons_joinSpace (mergeGo_ne_nil l b)] at h1
  injection h1

/-- The merge pass only regroups pieces, so the single-space join of the
merged sentences equals the single-space join of the pieces. -/
theorem mergeParts_join (ps : List (List Char)) :
    joinSpace (mergeParts ps) = joinSpace ps := by
  cases ps with
  | nil => rfl
  | cons p rest => exact mergeGo_join rest p

theorem goodPieces_join_wsSpace {ps : List (List Char)} (h : GoodPieces ps) :
    WSSpace (joinSpace ps) := by
  induction h with
  | last p hb _ =>
    rw [joinSpace_single]
    exact hb.2.1
  | cons p ps hb _ _ hps ih =>
    rw [joinSpace_cons hps.ne_nil]
    intro x hx hxws
    rcases List.mem_append.mp hx with hx | hx
    · exact hb.2.1 x hx hxws
    · rcases List.mem_cons.mp hx with rfl | hx
      · rfl
      · exact ih x hx hxws

theorem goodPieces_join_noWS2 {ps : List (List Char)} (h : GoodPieces ps) :
    NoWS2 (joinSpace ps) := by
  induction h with
  | last p hb _ =>
    rw [joinSpace_single]
    exact hb.2.2.1
  | cons p ps hb _ _ hps ih =>
    rw [joinSpace_cons hps.ne_nil]
    rw [NoWS2, List.chain'_append]
    refine ⟨hb.2.2.1, ?_, ?_⟩
    · rw [List.chain'_cons']
      refine ⟨?_, ih⟩
      intro y hy
      have hy' := goodPieces_join_headNot hps y hy
      simp [hy']
    · intro x hxl y hyh
      have hxws : pyWS x = false := hb.2.2.2.2 x hxl
      simp only [List.head?_cons, Option.mem_def, Option.some.injEq] at hyh
      subst hyh
      simp [hxws]

theorem goodPieces_join_lastNot {ps : List (List Char)} (h : GoodPieces ps) :
    LastNot pyWS (joinSpace ps) := by
  induction h with
  | last p hb _ =>
    rw [joinSpace_single]
    exact hb.2.2.2.2
  | cons p ps hb _ _ hps ih =>
    rw [joinSpace_cons hps.ne_nil]
    intro x hx
    rw [← suffix_getLast? (⟨p ++ [' '], by simp⟩ :
      joinSpace ps <:+ p ++ ' ' :: joinSpace ps)
      (goodPieces_join_ne_nil hps)] at hx
    exact ih x hx

theorem strip_filter_eq_self {ps : List (List Char)}
    (h : ∀ p ∈ ps, PieceBasic p) :
    (ps.map pyStrip).filter (fun p => !p.isEmpty) = ps := by
  induction ps with
  | nil => rfl
  | cons p rest ih =>
    have hb := h p (by simp)
    have hstrip : pyStrip p = p := pyStrip_eq_self hb.2.2.2.1 hb.2.2.2.2
    rw [List.map_cons, hstrip, List.filter_cons, if_pos ?_]
    · rw [ih (fun q hq => h q (by simp [hq]))]
    · cases hp : p with
      | nil => exact absurd hp hb.1
      | cons a l => rfl

theorem goodPieces_splitRaw {t : List Char} (hWS : WSSpace t) (hN2 : NoWS2 t)
    (hhead : HeadNot pyWS t) (hlast : LastNot pyWS t) (hne : t ≠ []) :
    GoodPieces (splitRaw t) := by
  rw [splitRaw]
  apply splitF_good t.length [] t le_rfl
  · simpa using hWS
  · simpa using hN2
  · simpa using hhead
  · simpa using hlast
  · simpa using hne
  · intro u c v hv
    simp at hv

theorem map_repl_eq_self {J : List Char} (h : WSSpace J) :
    J.map (fun c => if c = '\n' then ' ' else c) = J := by
  have hcong : ∀ c ∈ J, (if c = '\n' then ' ' else c) = c := by
    intro c hc
    by_cases hcn : c = '\n'
    · subst hcn
      exact absurd (h '\n' hc (by decide)) (by decide)
    · rw [if_neg hcn]
  calc J.map (fun c => if c = '\n' then ' ' else c)
      = J.map id := List.map_congr_left hcong
    _ = J := List.map_id J

/-- Idempotence on character lists: re-splitting the single-space join of
the sentences reproduces the sentences. -/
theorem sentCore_idem (cs : List Char) :
    sentCore (joinSpace (sentCore cs)) = sentCore cs := by
  have hnilcase : sentCore (joinSpace ([] : List (List Char))) = [] := by
    show sentCore [] = []
    rfl
  by_cases ht : (normWS (cs.map (fun c => if c = '\n' then ' ' else c))).isEmpty
      = true
  · have h1 : sentCore cs = [] := by
      simp only [sentCore]
      rw [if_pos ht]
    rw [h1, hnilcase]
  · have htne : normWS (cs.map (fun c => if c = '\n' then ' ' else c)) ≠ [] := by
      intro he
      rw [he] at ht
      exact ht rfl
    have hgoodRaw : GoodPieces
        (splitRaw (normWS (cs.map (fun c => if c = '\n' then ' ' else c)))) :=
      goodPieces_splitRaw (wsSpace_normWS _) (noWS2_normWS _) (headNot_normWS _)
        (lastNot_normWS _) htne
    have hsp : splitPieces (normWS (cs.map (fun c => if c = '\n' then ' ' else c)))
        = splitRaw (normWS (cs.map (fun c => if c = '\n' then ' ' else c))) := by
      rw [splitPieces, strip_filter_eq_self hgoodRaw.basic]
    have hgood : GoodPieces
        (splitPieces (normWS (cs.map (fun c => if c = '\n' then ' ' else c)))) := by
      rw [hsp]; exact hgoodRaw
    have hpne : (splitPieces
        (normWS (cs.map (fun c => if c = '\n' then ' ' else c)))).isEmpty
        = false := by
      cases hpp : splitPieces (normWS (cs.map (fun c => if c = '\n' then ' ' else c))) with
      | nil => exact absurd hpp hgood.ne_nil
      | cons a l => rfl
    have h1 : sentCore cs = mergeParts
        (splitPieces (normWS (cs.map (fun c => if c = '\n' then ' ' else c)))) := by
      simp only [sentCore]
      rw [if_neg (by simp [ht]), if_neg (by simp [hpne])]
    set parts := splitPieces (normWS (cs.map (fun c => if c = '\n' then ' ' else c)))
      with hparts
    rw [h1, mergeParts_join]
    -- now: sentCore (joinSpace parts) = mergeParts parts
    have hJrepl : (joinSpace parts).map (fun c => if c = '\n' then ' ' else c)
        = joinSpace parts := map_repl_eq_self (goodPieces_join_wsSpace hgood)
    have hJnorm : normWS (joinSpace parts) = joinSpace parts :=
      normWS_eq_self (goodPieces_join_wsSpace hgood) (goodPieces_join_noWS2 hgood)
        (goodPieces_join_headNot hgood) (goodPieces_join_lastNot hgood)
    have hJne : joinSpace parts ≠ [] := goodPieces_join_ne_nil hgood
    have hJE : (joinSpace parts).isEmpty = false := by
      cases hjj : joinSpace parts with
      | nil => exact absurd hjj hJne
      | cons a l => rfl
    have hsplit2 : splitRaw (joinSpace parts) = parts := by
      rw [splitRaw]
      exact splitF_joinSpace hgood (joinSpace parts).length le_rfl
    have hsp2 : splitPieces (joinSpace parts) = parts := by
      rw [splitPieces, hsplit2, strip_filter_eq_self hgood.basic]
    simp only [sentCore]
    rw [hJrepl, hJnorm, if_neg (by simp [hJE]), hsp2,
      if_neg (by simp [hpne, hparts])]

/-- Claim C8: segmentation is idempotent — joining the Segmenter's output
back with single spaces and re-running it yields exactly the same
sentences. -/
theorem claim_C8 (s : String) :
    split_sentences (joinWithSpace (split_sentences s)) = split_sentences s := by
  rw [split_sentences, split_sentences, joinWithSpace]
  have hdata : ((sentCore s.data).map String.mk).map String.data
      = sentCore s.data := by
    rw [List.map_map]
    calc (sentCore s.data).map (String.data ∘ String.mk)
        = (sentCore s.data).map id := List.map_congr_left (fun a _ => rfl)
      _ = sentCore s.data := List.map_id _
  rw [hdata]
  congr 1
  exact sentCore_idem s.data

end GetSentences
